import Mathlib

/-!
Verification of the hierarchical folder-management subsystem of the
Pink-Note application (`core/folder_manager.py`, together with the
clean-architecture presenter `application/use_cases/folder_service_impl.py`).

The embedding models the SQLite-backed state as an explicit `Store`:
a list of folder rows and a list of note rows, in rowid order, plus the
next row id.  Each manager operation is translated statement by
statement from the Python source:

* `SELECT ... WHERE id = ?` / `fetchone`   → `List.find?` over the rows;
* `SELECT ... WHERE path LIKE ? || '/%'`   → `matchesSqlLike`, a model of
  SQLite's default `LIKE`: `%` matches any sequence, `_` any single
  character, and letters compare ASCII case-insensitively (no
  `PRAGMA case_sensitive_like` is ever issued), both inside the stored
  `old_path` and in the appended `'/%'`;
* Python `str.startswith` (the cycle check)→ literal code-point prefix test;
* `UPDATE ... WHERE id = ?` in a loop over a previous `fetchall`
                                           → a single `List.map` (ids are keys);
* `DELETE FROM folders WHERE id = ?`       → `List.filter`.

The core wiring (`core/database_manager.py`) opens its SQLite connection
without `PRAGMA foreign_keys = ON`, so the `ON DELETE CASCADE` declared on
`folders.parent_id` in `core/folder_migration.py` does not fire at run
time: `delete_folder` removes exactly the one row named in its DELETE
statement.  The embedding models that actual behaviour.

Python strings are sequences of code points; they are modelled by `String`
via its `data : List Char` field.  `len(s)` is `s.data.length` and
`s[n:]` is `List.drop n` on `s.data`.
-/

/-- Python `len` on a string: number of code points. -/
def pyLen (s : String) : Nat := s.data.length

/-- Python slice `s[n:]`: drop the first `n` code points. -/
def pyDrop (s : String) (n : Nat) : String := String.mk (s.data.drop n)

/-- Python `s.startswith(pre)` (used by `move_folder`'s cycle check):
`pre` is a literal code-point prefix of `s`. -/
def matchesLike (s pre : String) : Bool := pre.data.isPrefixOf s.data

/-- ASCII case folding as SQLite's default `LIKE` applies it: upper-case
ASCII letters compare equal to their lower-case forms, every other code
point only to itself. -/
def fold (c : Char) : Char :=
  if 65 ≤ c.toNat ∧ c.toNat ≤ 90 then Char.ofNat (c.toNat + 32) else c

/-- Case folding over a list of code points. -/
def foldS (l : List Char) : List Char := l.map fold

/-- SQLite `LIKE` pattern matching (default `case_sensitive_like` off):
`%` matches any sequence, `_` any single character, anything else one
character up to ASCII case folding.  Fuel-bounded recursion; the fuel is
an upper bound on the number of steps the matcher can take. -/
def likeM : Nat → List Char → List Char → Bool
  | 0, _, _ => false
  | _ + 1, [], s => s.isEmpty
  | f + 1, pc :: p, s =>
    if pc = '%' then likeM f p s || (!s.isEmpty && likeM f (pc :: p) (s.drop 1))
    else
      match s with
      | [] => false
      | c :: s' => (pc == '_' || fold pc == fold c) && likeM f p s'

/-- `s LIKE pre || '%'` with SQLite's default semantics: the characters
of `pre` are pattern characters (`%`/`_` are wildcards, letters are
ASCII case-insensitive) and the appended `%` matches any tail. -/
def matchesSqlLike (s pre : String) : Bool :=
  likeM (pre.data.length + s.data.length + 2) (pre.data ++ ['%']) s.data

/-- Code-point-wise strict comparison of character lists, matching SQLite's
BINARY collation on the UTF-8 texts involved. -/
def charListLtb : List Char → List Char → Bool
  | _, [] => false
  | [], _ :: _ => true
  | a :: as, b :: bs =>
    decide (a.val < b.val) || (a.val == b.val && charListLtb as bs)

/-- `s < t` in the store's text ordering. -/
def strLtb (s t : String) : Bool := charListLtb s.data t.data

/-- `s ≤ t` in the store's text ordering. -/
def strLeb (s t : String) : Bool := !(strLtb t s)

/-- A row of the `folders` table:
`folders(id PK, name NOT NULL, parent_id NULLABLE FK, path NOT NULL)`. -/
structure Folder where
  id : Nat
  name : String
  parent_id : Option Nat
  path : String
deriving DecidableEq, Repr

/-- The slice of a `notes` row that the folder subsystem touches.  In the
core schema `folder_id` is an added, nullable column. -/
structure Note where
  id : Nat
  folder_id : Option Nat
deriving DecidableEq, Repr

/-- The database state seen by the folder manager: the two tables in rowid
order, and the id SQLite will assign to the next inserted folder row. -/
structure Store where
  folders : List Folder
  notes : List Note
  nextId : Nat
deriving DecidableEq, Repr

/-- `get_folder_by_id`: `SELECT id, name, parent_id, path FROM folders
WHERE id = ?` followed by `fetchone`. -/
def getFolderById (s : Store) (folder_id : Nat) : Option Folder :=
  s.folders.find? (fun f => f.id == folder_id)

/-- Insertion step of the sort used to model `ORDER BY path`. -/
def insertByPathLe (f : Folder) : List Folder → List Folder
  | [] => [f]
  | g :: gs => if strLeb f.path g.path then f :: g :: gs else g :: insertByPathLe f gs

/-- Sort folder rows by `path` ascending (BINARY collation). -/
def sortByPath (fs : List Folder) : List Folder := fs.foldr insertByPathLe []

/-- `get_all_folders`: `SELECT id, name, parent_id, path FROM folders
ORDER BY path`. -/
def getAllFolders (s : Store) : List Folder := sortByPath s.folders

/-- `create_folder(name, parent_id=None)`.  Duplicate-name check at the
same level (the `IS NULL` and `= ?` branches coincide on `Option`), then
the path is `"/" + name` unless the parent row is found, in which case it
is `parent.path + "/" + name`; finally the row is inserted.  The core
connection does not enforce the `parent_id` foreign key, so the insert
succeeds even when `parent_id` names no row. -/
def createFolder (s : Store) (name : String) (parent_id : Option Nat) :
    Option Nat × Store :=
  if s.folders.any (fun f => f.name == name && f.parent_id == parent_id) then
    (none, s)
  else
    let path :=
      match parent_id with
      | none => "/" ++ name
      | some p =>
        match getFolderById s p with
        | some parent => parent.path ++ "/" ++ name
        | none => "/" ++ name
    (some s.nextId,
      { s with
        folders := s.folders ++ [⟨s.nextId, name, parent_id, path⟩],
        nextId := s.nextId + 1 })

/-- The subtree rewrite shared by rename and move: a row whose `path`
matches `LIKE old_path || '/%'` (SQLite semantics) gets
`new_path + path[len(old_path):]`. -/
def rewritePath (old_path new_path : String) (f : Folder) : Folder :=
  if matchesSqlLike f.path (old_path ++ "/") then
    { f with path := new_path ++ pyDrop f.path (pyLen old_path) }
  else f

/-- The mutation step shared by `rename_folder` and `move_folder`: first
the `UPDATE ... WHERE id = folder_id` (`upd`), then the
`SELECT ... WHERE path LIKE old_path || '/%'` over the updated table and
the per-row path rewrite. -/
def applyPathRewrite (fid : Nat) (upd : Folder → Folder)
    (old_path new_path : String) (fs : List Folder) : List Folder :=
  fs.map (fun f => rewritePath old_path new_path (if f.id == fid then upd f else f))

/-- `rename_folder(folder_id, new_name)`.  Returns `none` where the
Python raises an uncaught `TypeError`: the new path is computed as
`parent[3] + "/" + new_name` without checking that the parent row was
found. -/
def renameFolder (s : Store) (folder_id : Nat) (new_name : String) :
    Option (Bool × Store) :=
  match getFolderById s folder_id with
  | none => some (false, s)
  | some folder =>
    if s.folders.any (fun f =>
        f.name == new_name && f.parent_id == folder.parent_id && f.id != folder_id) then
      some (false, s)
    else
      match folder.parent_id with
      | none =>
        let new_path := "/" ++ new_name
        some (true, { s with
          folders := applyPathRewrite folder_id
            (fun f => { f with name := new_name, path := new_path })
            folder.path new_path s.folders })
      | some p =>
        match getFolderById s p with
        | none => none
        | some parent =>
          let new_path := parent.path ++ "/" ++ new_name
          some (true, { s with
            folders := applyPathRewrite folder_id
              (fun f => { f with name := new_name, path := new_path })
              folder.path new_path s.folders })

/-- `move_folder(folder_id, new_parent_id=None)`: existence check,
`Geral`-at-root protection, destination existence, self/descendant (cycle)
check via `startswith(folder.path + "/")`, duplicate-name check at the
destination, then the parent/path update and the shared subtree rewrite. -/
def moveFolder (s : Store) (folder_id : Nat) (new_parent_id : Option Nat) :
    Bool × Store :=
  match getFolderById s folder_id with
  | none => (false, s)
  | some folder =>
    if folder.name == "Geral" && folder.parent_id == none then (false, s)
    else
      let parentCheckFailed :=
        match new_parent_id with
        | none => false
        | some np =>
          match getFolderById s np with
          | none => true
          | some new_parent =>
            np == folder_id || matchesLike new_parent.path (folder.path ++ "/")
      if parentCheckFailed then (false, s)
      else if s.folders.any (fun f =>
          f.name == folder.name && f.parent_id == new_parent_id && f.id != folder_id) then
        (false, s)
      else
        let new_path :=
          match new_parent_id with
          | none => "/" ++ folder.name
          | some np =>
            match getFolderById s np with
            | some new_parent => new_parent.path ++ "/" ++ folder.name
            | none => "/" ++ folder.name
        (true, { s with
          folders := applyPathRewrite folder_id
            (fun f => { f with parent_id := new_parent_id, path := new_path })
            folder.path new_path s.folders })

/-- Reassign to `target` every note whose `folder_id` equals `src`
(`UPDATE notes SET folder_id = ? WHERE folder_id = ?`). -/
def reassignNotes (src target : Nat) (notes : List Note) : List Note :=
  notes.map (fun n => if n.folder_id == some src then { n with folder_id := some target } else n)

/-- `delete_folder(folder_id)`: existence check, `Geral`-at-root
protection, lookup of the `Geral` row by name, note reassignment for the
folder itself and for every row matching `path LIKE path || '/%'`, then
`DELETE FROM folders WHERE id = ?`.  The core connection never enables
`PRAGMA foreign_keys`, so the declared `ON DELETE CASCADE` does not fire
and only the one row is removed. -/
def deleteFolder (s : Store) (folder_id : Nat) : Bool × Store :=
  match getFolderById s folder_id with
  | none => (false, s)
  | some folder =>
    if folder.name == "Geral" && folder.parent_id == none then (false, s)
    else
      match s.folders.find? (fun f => f.name == "Geral" && f.parent_id == none) with
      | none => (false, s)
      | some geral =>
        let notes₁ := reassignNotes folder_id geral.id s.notes
        let subfolders := s.folders.filter (fun f => matchesSqlLike f.path (folder.path ++ "/"))
        let notes₂ := subfolders.foldl (fun ns sub => reassignNotes sub.id geral.id ns) notes₁
        (true, { s with
          notes := notes₂,
          folders := s.folders.filter (fun f : Folder => f.id != folder_id) })

/-- `move_note(note_id, folder_id)`: if the note exists and the target
folder either is `None` or exists, set the note's `folder_id`. -/
def moveNote (s : Store) (note_id : Nat) (folder_id : Option Nat) : Bool × Store :=
  if (s.notes.find? (fun n => n.id == note_id)).isNone then (false, s)
  else
    let folderMissing : Bool :=
      match folder_id with
      | none => false
      | some fid => (s.folders.find? (fun f => f.id == fid)).isNone
    if folderMissing then (false, s)
    else
      (true, { s with
        notes := s.notes.map (fun n : Note =>
          if n.id == note_id then { n with folder_id := folder_id } else n) })

/-- `FolderServiceImpl._add_folder_with_depth`: emit the folder with its
depth, then recurse into every row whose `parent_id` points at it.  The
Python recursion is unbounded (it would not terminate on a cyclic parent
chain); the fuel parameter makes it total, and the caller passes more fuel
than any parent chain in an acyclic table can consume. -/
def addFolderWithDepth (all : List Folder) : Nat → Folder → Nat → List (Folder × Nat)
  | 0, _, _ => []
  | fuel + 1, folder, depth =>
    (folder, depth) ::
      (all.filter (fun f => f.parent_id == some folder.id)).flatMap
        (fun c => addFolderWithDepth all fuel c (depth + 1))

/-- `FolderServiceImpl.get_folder_hierarchy`: read all folders (ordered by
path), take the roots in that order, and pre-order traverse each. -/
def getFolderHierarchy (s : Store) : List (Folder × Nat) :=
  let folders := getAllFolders s
  (folders.filter (fun f => f.parent_id == none)).flatMap
    (fun r => addFolderWithDepth folders (folders.length + 1) r 0)

/-- Invariant I1 exactly as the specification states it: a folder with a
stored parent row has `path = parent.path + "/" + name`, and a root folder
has `path = "/" + name`. -/
def invariantI1 (fs : List Folder) : Prop :=
  ∀ f ∈ fs,
    (f.parent_id = none → f.path = "/" ++ f.name) ∧
    (∀ P ∈ fs, f.parent_id = some P.id → f.path = P.path ++ "/" ++ f.name)

/-- Strong per-row shape: a root row has `path = "/" + name`; a non-root
row's parent id names a stored row and `path = parent.path + "/" + name`. -/
def folderOkB (fs : List Folder) (f : Folder) : Bool :=
  match f.parent_id with
  | none => f.path == "/" ++ f.name
  | some p => fs.any (fun P => P.id == p && f.path == P.path ++ "/" ++ f.name)

/-- Well-formedness of a store, as produced by the initialisation code and
by slash-free use of the operations: distinct ids below the id counter,
distinct paths, every row of the strong I1 shape, and no `/` inside any
folder name. -/
def wf (s : Store) : Prop :=
  (s.folders.map Folder.id).Nodup ∧
  (s.folders.map Folder.path).Nodup ∧
  (∀ f ∈ s.folders, folderOkB s.folders f = true) ∧
  (∀ f ∈ s.folders, '/' ∉ f.name.data) ∧
  (∀ f ∈ s.folders, f.id < s.nextId)

instance (fs : List Folder) : Decidable (invariantI1 fs) := by
  unfold invariantI1
  infer_instance

instance (s : Store) : Decidable (wf s) := by
  unfold wf
  infer_instance

/-- The store keeps `LIKE`-based subtree selection exact: no stored path
contains a `LIKE` wildcard, and no two stored paths collide under ASCII
case folding.  Violating either lets the `LIKE old_path || '/%'` clauses
of rename/move/delete select rows outside the subtree. -/
def likeSafe (s : Store) : Prop :=
  (∀ f ∈ s.folders, '%' ∉ f.path.data ∧ '_' ∉ f.path.data) ∧
  (s.folders.map (fun f => foldS f.path.data)).Nodup

instance (s : Store) : Decidable (likeSafe s) := by
  unfold likeSafe
  infer_instance

/-- Proper descendant in the stored parent graph. -/
inductive IsDesc (fs : List Folder) : Folder → Folder → Prop
  | direct {A D : Folder} : A ∈ fs → D ∈ fs → D.parent_id = some A.id → IsDesc fs A D
  | step {A P D : Folder} : IsDesc fs A P → D ∈ fs → D.parent_id = some P.id → IsDesc fs A D

/-- The store created by `folder_migration.py` / `db_init.py`: the single
`Geral` root folder with id 1 (the welcome note is irrelevant here). -/
def initStore : Store := ⟨[⟨1, "Geral", none, "/Geral"⟩], [], 2⟩

/-- A store with `Geral`, a root folder `A`, a child `B` of `A`, and one
note filed in `B`. -/
def storeAB : Store :=
  ⟨[⟨1, "Geral", none, "/Geral"⟩, ⟨2, "A", none, "/A"⟩, ⟨3, "B", some 2, "/A/B"⟩],
   [⟨1, some 3⟩], 4⟩

/-- A store with `Geral` and a chain `A` → `B` → `C` of folders. -/
def storeABC : Store :=
  ⟨[⟨1, "Geral", none, "/Geral"⟩, ⟨2, "A", none, "/A"⟩, ⟨3, "B", some 2, "/A/B"⟩,
    ⟨4, "C", some 3, "/A/B/C"⟩], [], 5⟩

theorem str_ext {s t : String} (h : s.data = t.data) : s = t := by
  cases s
  cases t
  exact congrArg String.mk h

theorem slash_append_data (s : String) : ("/" ++ s).data = '/' :: s.data := by
  rw [String.data_append]
  rfl

theorem matchesLike_iff {s pre : String} :
    matchesLike s pre = true ↔ pre.data <+: s.data := by
  unfold matchesLike
  exact List.isPrefixOf_iff_prefix

theorem fold_toNat_of_upper {c : Char} (h : 65 ≤ c.toNat ∧ c.toNat ≤ 90) :
    (fold c).toNat = c.toNat + 32 := by
  unfold fold
  rw [if_pos h]
  unfold Char.ofNat
  rw [dif_pos (Or.inl (by omega : c.toNat + 32 < 0xd800))]
  rfl

theorem fold_of_not_upper {c : Char} (h : ¬(65 ≤ c.toNat ∧ c.toNat ≤ 90)) :
    fold c = c := by
  unfold fold
  rw [if_neg h]

theorem fold_slash : fold '/' = '/' := by decide

theorem fold_eq_slash {c : Char} (h : fold c = '/') : c = '/' := by
  by_cases hr : 65 ≤ c.toNat ∧ c.toNat ≤ 90
  · exfalso
    have h2 := fold_toNat_of_upper hr
    rw [h, show ('/').toNat = 47 from by decide] at h2
    omega
  · rwa [fold_of_not_upper hr] at h

/-- Case folding neither creates nor destroys path separators. -/
theorem mem_foldS_slash {l : List Char} : '/' ∈ foldS l ↔ '/' ∈ l := by
  unfold foldS
  constructor
  · intro h
    obtain ⟨c, hc, hfc⟩ := List.mem_map.mp h
    rwa [fold_eq_slash hfc] at hc
  · intro h
    exact List.mem_map.mpr ⟨'/', h, fold_slash⟩

/-- A trailing `%` matches any remaining text. -/
theorem likeM_pct {f : Nat} {s : List Char} (hf : s.length + 2 ≤ f) :
    likeM f ['%'] s = true := by
  induction s generalizing f with
  | nil =>
    obtain ⟨f1, rfl⟩ : ∃ f1, f = f1 + 2 := ⟨f - 2, by omega⟩
    simp [likeM]
  | cons c s' ih =>
    obtain ⟨f1, rfl⟩ : ∃ f1, f = f1 + 1 := ⟨f - 1, by omega⟩
    have h2 : likeM f1 ['%'] s' = true := ih (by simp at hf ⊢; omega)
    simp [likeM, h2]

/-- `LIKE` completeness: a literal code-point extension of the prefix
always matches, whatever pattern characters the prefix contains. -/
theorem likeM_complete {f : Nat} (p t : List Char)
    (hf : 2 * p.length + t.length + 2 ≤ f) :
    likeM f (p ++ ['%']) (p ++ t) = true := by
  induction p generalizing f with
  | nil =>
    simp only [List.nil_append]
    exact likeM_pct (by simp at hf ⊢; omega)
  | cons pc p' ih =>
    obtain ⟨f1, rfl⟩ : ∃ f1, f = f1 + 1 := ⟨f - 1, by simp at hf ⊢; omega⟩
    by_cases hpc : pc = '%'
    · subst hpc
      obtain ⟨f2, rfl⟩ : ∃ f2, f1 = f2 + 1 := ⟨f1 - 1, by simp at hf ⊢; omega⟩
      have hih : likeM f2 (p' ++ ['%']) (p' ++ t) = true :=
        ih (by simp at hf ⊢; omega)
      simp [likeM, hih]
    · have hih : likeM f1 (p' ++ ['%']) (p' ++ t) = true :=
        ih (by simp at hf ⊢; omega)
      simp [likeM, hpc, hih]

theorem matchesSqlLike_of_prefix {s pre : String} (h : pre.data <+: s.data) :
    matchesSqlLike s pre = true := by
  obtain ⟨t, ht⟩ := h
  unfold matchesSqlLike
  rw [← ht]
  exact likeM_complete pre.data t (by simp only [List.length_append]; omega)

/-- On a wildcard-free prefix, `LIKE pre || '%'` is exactly the
case-folded prefix test. -/
theorem likeM_no_wild {p : List Char} {s : List Char} {f : Nat}
    (hf : p.length + s.length + 2 ≤ f)
    (hpct : '%' ∉ p) (hus : '_' ∉ p) :
    likeM f (p ++ ['%']) s = (foldS p).isPrefixOf (foldS s) := by
  induction p generalizing s f with
  | nil =>
    simp only [List.nil_append, foldS, List.map_nil]
    rw [likeM_pct (by simp at hf ⊢; omega)]
    simp [List.isPrefixOf]
  | cons pc p' ih =>
    obtain ⟨f1, rfl⟩ : ∃ f1, f = f1 + 1 := ⟨f - 1, by simp at hf ⊢; omega⟩
    have hpc : pc ≠ '%' := fun h => hpct (h ▸ List.mem_cons_self pc p')
    have hu : pc ≠ '_' := fun h => hus (h ▸ List.mem_cons_self pc p')
    cases s with
    | nil =>
      simp [likeM, hpc, foldS, List.isPrefixOf]
    | cons c s' =>
      have hih := ih (s := s') (f := f1) (by simp at hf ⊢; omega)
        (fun hm => hpct (List.mem_cons_of_mem pc hm))
        (fun hm => hus (List.mem_cons_of_mem pc hm))
      have hub : (pc == '_') = false := by
        simpa using hu
      simp only [likeM, if_neg hpc, foldS, List.map_cons, List.isPrefixOf,
        List.append_eq, hub, Bool.false_or]
      rw [hih]
      rfl

theorem matchesSqlLike_iff {s pre : String} (hpct : '%' ∉ pre.data)
    (hus : '_' ∉ pre.data) :
    matchesSqlLike s pre = true ↔ foldS pre.data <+: foldS s.data := by
  unfold matchesSqlLike
  rw [likeM_no_wild (by omega) hpct hus, List.isPrefixOf_iff_prefix]

theorem pyDrop_data (s : String) (n : Nat) : (pyDrop s n).data = s.data.drop n := rfl

theorem getFolderById_mem {s : Store} {fid : Nat} {F : Folder}
    (h : getFolderById s fid = some F) : F ∈ s.folders ∧ F.id = fid := by
  refine ⟨List.mem_of_find?_eq_some h, ?_⟩
  have := List.find?_some h
  simpa using this

theorem getFolderById_isSome {s : Store} {fid : Nat}
    (h : ∃ f ∈ s.folders, f.id = fid) : ∃ F, getFolderById s fid = some F := by
  rcases h with ⟨f, hf, hid⟩
  have : (s.folders.find? (fun g => g.id == fid)).isSome :=
    List.find?_isSome.mpr ⟨f, hf, by simp [hid]⟩
  exact Option.isSome_iff_exists.mp this

theorem nodup_map_eq {α β : Type} {f : α → β} {l : List α}
    (h : (l.map f).Nodup) {a b : α} (ha : a ∈ l) (hb : b ∈ l) (hf : f a = f b) :
    a = b := by
  induction l with
  | nil => cases ha
  | cons x xs ih =>
    rw [List.map_cons, List.nodup_cons] at h
    rcases List.mem_cons.mp ha with rfl | ha' <;>
      rcases List.mem_cons.mp hb with rfl | hb'
    · rfl
    · exact absurd (hf ▸ List.mem_map_of_mem f hb') h.1
    · exact absurd (hf ▸ List.mem_map_of_mem f ha') h.1
    · exact ih h.2 ha' hb'

theorem folderOk_root {fs : List Folder} {f : Folder}
    (h : folderOkB fs f = true) (hr : f.parent_id = none) :
    f.path = "/" ++ f.name := by
  unfold folderOkB at h
  rw [hr] at h
  simpa using h

theorem folderOk_parent {fs : List Folder} {f : Folder} {p : Nat}
    (h : folderOkB fs f = true) (hp : f.parent_id = some p) :
    ∃ P ∈ fs, P.id = p ∧ f.path = P.path ++ "/" ++ f.name := by
  unfold folderOkB at h
  rw [hp] at h
  rcases List.any_eq_true.mp h with ⟨P, hP, hPp⟩
  simp only [Bool.and_eq_true, beq_iff_eq] at hPp
  exact ⟨P, hP, hPp.1, hPp.2⟩

theorem rewritePath_id (op np : String) (f : Folder) :
    (rewritePath op np f).id = f.id := by
  unfold rewritePath
  split <;> rfl

theorem rewritePath_name (op np : String) (f : Folder) :
    (rewritePath op np f).name = f.name := by
  unfold rewritePath
  split <;> rfl

theorem rewritePath_parent (op np : String) (f : Folder) :
    (rewritePath op np f).parent_id = f.parent_id := by
  unfold rewritePath
  split <;> rfl

/-- Claim C10: for every existing note id, `move_note(note_id, None)`
returns `True` and sets that note's `folder_id` to `None`; the
folder-existence check is skipped for a `None` destination, so the update
goes through with no requirement on the folders table at all. -/
theorem claim10_move_note_none (s : Store) (n : Note) (hn : n ∈ s.notes) :
    (moveNote s n.id none).1 = true ∧
    ∀ m ∈ (moveNote s n.id none).2.notes, m.id = n.id → m.folder_id = none := by
  have hfind : (s.notes.find? (fun m => m.id == n.id)).isSome :=
    List.find?_isSome.mpr ⟨n, hn, by simp⟩
  obtain ⟨m₀, hm₀⟩ := Option.isSome_iff_exists.mp hfind
  refine ⟨by simp [moveNote, hm₀], ?_⟩
  intro m hm hid
  simp only [moveNote, hm₀, Option.isNone_some, Bool.false_eq_true, if_false] at hm
  simp only [List.mem_map] at hm
  obtain ⟨m₁, _, rfl⟩ := hm
  by_cases h : m₁.id = n.id
  · simp [h]
  · simp only [beq_iff_eq, h, if_false] at hid

/-- Claim C10 witness: a store with a single note and no folders at all. -/
theorem claim10_witness :
    (moveNote ⟨[], [⟨1, some 1⟩], 2⟩ 1 none).1 = true ∧
    ∀ m ∈ (moveNote ⟨[], [⟨1, some 1⟩], 2⟩ 1 none).2.notes,
      m.id = 1 → m.folder_id = none :=
  claim10_move_note_none ⟨[], [⟨1, some 1⟩], 2⟩ ⟨1, some 1⟩ (by decide)

/-- Claim C4, evaluated at the failing input: in `storeAB`, deleting
folder 2 (`/A`) succeeds and reassigns the note of descendant folder 3 to
`Geral`, but the row of folder 3 itself survives — the declared
`ON DELETE CASCADE` never runs because the core connection does not enable
foreign-key enforcement, so descendant folder rows are not removed. -/
theorem claim4_delete_leaves_descendant_rows :
    (deleteFolder storeAB 2).1 = true ∧
    (⟨3, "B", some 2, "/A/B"⟩ : Folder) ∈ (deleteFolder storeAB 2).2.folders ∧
    ∀ n ∈ (deleteFolder storeAB 2).2.notes, n.folder_id = some 1 := by decide

/-- Claim C5 counterexample: `create_folder("", None)` on the freshly
initialised store is not rejected — it returns a new id and inserts a row
named `""` with path `"/"`. -/
theorem claim5_counterexample :
    (createFolder initStore ("") none).1 = some 2 ∧
    (⟨2, "", none, "/"⟩ : Folder) ∈ (createFolder initStore ("") none).2.folders := by
  decide

/-- Claim C5 amended: `create_folder` performs no empty-name validation.
Whenever no sibling at the target level is already named `""`, the call
with an empty name succeeds and inserts a row whose name is `""`. -/
theorem claim5_amended_empty_name_accepted (s : Store) (parent_id : Option Nat)
    (hdup : ∀ f ∈ s.folders, ¬(f.name = "" ∧ f.parent_id = parent_id)) :
    ∃ pth : String,
      createFolder s ("") parent_id =
        (some s.nextId,
          { s with folders := s.folders ++ [⟨s.nextId, "", parent_id, pth⟩],
                   nextId := s.nextId + 1 }) := by
  have hany : (s.folders.any (fun f => f.name == "" && f.parent_id == parent_id)) = false := by
    rw [List.any_eq_false]
    intro f hf
    simp only [Bool.and_eq_true, beq_iff_eq]
    exact fun h => hdup f hf ⟨h.1, h.2⟩
  unfold createFolder
  rw [hany]
  exact ⟨_, rfl⟩

/-- Claim C5 witness for the amended statement. -/
theorem claim5_witness :
    ∃ pth : String,
      createFolder initStore ("") none =
        (some 2, { initStore with
                      folders := initStore.folders ++ [⟨2, "", none, pth⟩],
                      nextId := 3 }) :=
  claim5_amended_empty_name_accepted initStore none (by decide)

/-- Claim C6 counterexample: with no folder 99 in the store,
`create_folder("x", 99)` does not fail — it inserts a row with the
dangling `parent_id = 99` and the root-style path `"/x"`, because the
missing parent row merely skips the path adjustment and the core
connection does not enforce the foreign key. -/
theorem claim6_counterexample :
    (createFolder initStore ("x") (some 99)).1 = some 2 ∧
    (⟨2, "x", some 99, "/x"⟩ : Folder) ∈ (createFolder initStore ("x") (some 99)).2.folders := by
  decide

/-- Claim C6 amended: when `parent_id` names no stored folder and no row
with the same name already has that `parent_id`, `create_folder` succeeds
and inserts a row with the dangling parent reference and path
`"/" + name`. -/
theorem claim6_amended_missing_parent_insert (s : Store) (name : String) (p : Nat)
    (hp : getFolderById s p = none)
    (hdup : ∀ f ∈ s.folders, ¬(f.name = name ∧ f.parent_id = some p)) :
    createFolder s name (some p) =
      (some s.nextId,
        { s with folders := s.folders ++ [⟨s.nextId, name, some p, "/" ++ name⟩],
                 nextId := s.nextId + 1 }) := by
  have hany : (s.folders.any (fun f => f.name == name && f.parent_id == some p)) = false := by
    rw [List.any_eq_false]
    intro f hf
    simp only [Bool.and_eq_true, beq_iff_eq]
    exact fun h => hdup f hf ⟨h.1, h.2⟩
  simp only [createFolder, hany, Bool.false_eq_true, if_false, hp]

/-- Claim C6 witness for the amended statement. -/
theorem claim6_witness :
    createFolder initStore ("x") (some 99) =
      (some 2, { initStore with
                    folders := initStore.folders ++ [⟨2, "x", some 99, "/x"⟩],
                    nextId := 3 }) :=
  claim6_amended_missing_parent_insert initStore ("x") 99 (by decide) (by decide)

/-- Claim C3 counterexample: `rename_folder` has no protection for the
default folder — renaming the `Geral` root of the initial store to
`"Work"` succeeds and rewrites its row. -/
theorem claim3_counterexample :
    renameFolder initStore 1 ("Work") =
      some (true, ⟨[⟨1, "Work", none, "/Work"⟩], [], 2⟩) ∧
    (⟨[⟨1, "Work", none, "/Work"⟩], [], 2⟩ : Store) ≠ initStore := by decide

/-- Row-level membership characterisation of the shared subtree-rewrite
step. -/
theorem applyPathRewrite_mem {fs : List Folder} {fid : Nat} {upd : Folder → Folder}
    {op np : String} {g' : Folder} :
    g' ∈ applyPathRewrite fid upd op np fs ↔
      ∃ g ∈ fs, g' = rewritePath op np (if g.id = fid then upd g else g) := by
  unfold applyPathRewrite
  rw [List.mem_map]
  constructor
  · rintro ⟨g, hg, rfl⟩
    exact ⟨g, hg, by simp only [beq_iff_eq]⟩
  · rintro ⟨g, hg, rfl⟩
    exact ⟨g, hg, by simp only [beq_iff_eq]⟩

/-- The image of the updated row itself under the shared rewrite step. -/
theorem applyPathRewrite_mem_updated {fs : List Folder} {F : Folder} (hF : F ∈ fs)
    {fid : Nat} (hid : F.id = fid) (upd : Folder → Folder) (op np : String) :
    rewritePath op np (upd F) ∈ applyPathRewrite fid upd op np fs := by
  rw [applyPathRewrite_mem]
  exact ⟨F, hF, by rw [if_pos hid]⟩

/-- Claim C3 amended: the default (`Geral`, root) folder cannot be deleted
or moved — both calls return `False` with the store untouched — but
`rename_folder` has no such protection: any rename of the default folder
that passes the ordinary duplicate-sibling check succeeds and renames it
away from its protected name. -/
theorem claim3_amended_default_protection (s : Store) (gid : Nat) (G : Folder)
    (hG : getFolderById s gid = some G) (hname : G.name = "Geral")
    (hroot : G.parent_id = none) :
    deleteFolder s gid = (false, s) ∧
    (∀ tgt, moveFolder s gid tgt = (false, s)) ∧
    ∀ nn, (∀ f ∈ s.folders, ¬(f.name = nn ∧ f.parent_id = none ∧ f.id ≠ gid)) →
      ∃ s', renameFolder s gid nn = some (true, s') ∧
        ∃ g ∈ s'.folders, g.id = gid ∧ g.name = nn := by
  have hb : (G.name == "Geral" && G.parent_id == none) = true := by
    simp [hname, hroot]
  obtain ⟨hGmem, hGid⟩ := getFolderById_mem hG
  refine ⟨?_, ?_, ?_⟩
  · simp only [deleteFolder, hG, hb, if_true]
  · intro tgt
    simp only [moveFolder, hG, hb, if_true]
  · intro nn hdup
    have hany : (s.folders.any fun f =>
        f.name == nn && f.parent_id == none && f.id != gid) = false := by
      rw [List.any_eq_false]
      intro f hf
      simp only [Bool.and_eq_true, beq_iff_eq, bne_iff_ne, ne_eq]
      rintro ⟨⟨h1, h2⟩, h3⟩
      exact hdup f hf ⟨h1, h2, h3⟩
    have heq : renameFolder s gid nn = some (true, { s with folders := applyPathRewrite gid (fun f => { f with name := nn, path := "/" ++ nn }) G.path ("/" ++ nn) s.folders }) := by
      simp only [renameFolder, hG, hroot, hany, Bool.false_eq_true, if_false]
    refine ⟨_, heq, ?_⟩
    · refine ⟨rewritePath G.path ("/" ++ nn) { G with name := nn, path := "/" ++ nn },
        applyPathRewrite_mem_updated hGmem hGid _ _ _, ?_, ?_⟩
      · rw [rewritePath_id]
        exact hGid
      · rw [rewritePath_name]

/-- Claim C3 witness at the initial store: delete and move of the default
folder fail and leave the store unchanged, while renaming it succeeds. -/
theorem claim3_witness :
    deleteFolder initStore 1 = (false, initStore) ∧
    moveFolder initStore 1 (some 5) = (false, initStore) ∧
    ∃ s', renameFolder initStore 1 ("Work") = some (true, s') ∧
      ∃ g ∈ s'.folders, g.id = 1 ∧ g.name = "Work" := by
  have h := claim3_amended_default_protection initStore 1 ⟨1, "Geral", none, "/Geral"⟩
    (by decide) rfl rfl
  exact ⟨h.1, h.2.1 (some 5), h.2.2 ("Work") (by decide)⟩

theorem data_append3 (a b : String) : (a ++ "/" ++ b).data = a.data ++ '/' :: b.data := by
  rw [String.data_append, String.data_append]
  rw [List.append_assoc]
  rfl

theorem append_cons_eq (l : List Char) (c : Char) (r : List Char) :
    l ++ c :: r = (l ++ [c]) ++ r := by
  rw [List.append_assoc]
  rfl

theorem slash_prefix_of_append (a b : String) :
    (a ++ "/").data <+: (a ++ "/" ++ b).data := by
  have h : a.data ++ '/' :: b.data = (a.data ++ ['/']) ++ b.data := by
    rw [List.append_assoc]
    rfl
  rw [data_append3, String.data_append, h]
  exact List.prefix_append _ _

/-- The image of a row other than the updated one under the shared
rewrite step. -/
theorem applyPathRewrite_mem_other {fs : List Folder} {F : Folder} (hF : F ∈ fs)
    {fid : Nat} (hid : F.id ≠ fid) (upd : Folder → Folder) (op np : String) :
    rewritePath op np F ∈ applyPathRewrite fid upd op np fs := by
  rw [applyPathRewrite_mem]
  exact ⟨F, hF, by rw [if_neg hid]⟩

theorem rewritePath_not_matched {op np : String} {f : Folder}
    (h : matchesSqlLike f.path (op ++ "/") = false) : rewritePath op np f = f := by
  unfold rewritePath
  rw [h]
  simp

theorem rewritePath_matched {op np : String} {f : Folder}
    (h : matchesSqlLike f.path (op ++ "/") = true) :
    rewritePath op np f = { f with path := np ++ pyDrop f.path (pyLen op) } := by
  unfold rewritePath
  rw [h]
  simp

/-- The rewrite is a no-op on a row whose path is already the new path,
whenever the new path is no longer than the old one: even if the `LIKE`
pattern matches, the appended slice `path[len(old_path):]` is empty. -/
theorem rewritePath_path_noop {op np : String} {f : Folder} (hf : f.path = np)
    (hlen : np.data.length ≤ op.data.length) : (rewritePath op np f).path = np := by
  have hdrop : pyDrop f.path (pyLen op) = String.mk [] := by
    unfold pyDrop pyLen
    rw [hf]
    congr 1
    exact List.drop_eq_nil_of_le hlen
  unfold rewritePath
  split
  · show np ++ pyDrop f.path (pyLen op) = np
    rw [hdrop]
    apply str_ext
    rw [String.data_append]
    exact List.append_nil _
  · exact hf

theorem matchesLike_false_of_longer {s pre : String}
    (h : s.data.length < pre.data.length) : matchesLike s pre = false := by
  rw [Bool.eq_false_iff]
  intro hp
  rw [matchesLike_iff] at hp
  exact absurd hp.length_le (not_le.mpr h)

/-- Claim C7: with root folder `A`, child `B` of `A`, and grandchild `C`
of `B`, moving `A` under `C` is rejected (the target's path extends `A`'s
path, i.e. the cycle check fires) with no change to the store, while
moving `B` to the root level succeeds, giving `B` path `"/" + B.name` and
`C` path `"/" + B.name + "/" + C.name`. -/
theorem claim7_move_cycle_and_root (s : Store) (aid bid cid : Nat)
    (A B C : Folder)
    (hA : getFolderById s aid = some A)
    (hB : getFolderById s bid = some B) (hBparent : B.parent_id = some aid)
    (hBpath : B.path = A.path ++ "/" ++ B.name)
    (hCmem : C ∈ s.folders) (hCid : C.id = cid) (hCne : cid ≠ bid)
    (hCfind : getFolderById s cid = some C)
    (hCpath : C.path = B.path ++ "/" ++ C.name)
    (hdup : ∀ f ∈ s.folders, ¬(f.name = B.name ∧ f.parent_id = none ∧ f.id ≠ bid)) :
    moveFolder s aid (some cid) = (false, s) ∧
    (moveFolder s bid none).1 = true ∧
    (∃ B' ∈ (moveFolder s bid none).2.folders,
      B'.id = bid ∧ B'.name = B.name ∧ B'.parent_id = none ∧ B'.path = "/" ++ B.name) ∧
    ∃ C' ∈ (moveFolder s bid none).2.folders,
      C'.id = cid ∧ C'.name = C.name ∧ C'.path = "/" ++ B.name ++ "/" ++ C.name := by
  obtain ⟨hBmem, hBid⟩ := getFolderById_mem hB
  have hmatchC : matchesLike C.path (A.path ++ "/") = true := by
    rw [matchesLike_iff, hCpath]
    have h1 : (A.path ++ "/").data <+: B.path.data := by
      rw [hBpath]
      exact slash_prefix_of_append _ _
    have h2 : B.path.data <+: (B.path ++ "/" ++ C.name).data := by
      rw [data_append3]
      exact List.prefix_append _ _
    exact h1.trans h2
  have part1 : moveFolder s aid (some cid) = (false, s) := by
    by_cases hg : (A.name == "Geral" && A.parent_id == none) = true
    · simp only [moveFolder, hA, hg, if_true]
    · have hg' : (A.name == "Geral" && A.parent_id == none) = false :=
        Bool.eq_false_iff.mpr hg
      simp only [moveFolder, hA, hg', Bool.false_eq_true, if_false, hCfind,
        hmatchC, Bool.or_true, if_true]
  have hgB : (B.name == "Geral" && B.parent_id == none) = false := by
    simp [hBparent]
  have hanyB : (s.folders.any fun f =>
      f.name == B.name && f.parent_id == none && f.id != bid) = false := by
    rw [List.any_eq_false]
    intro f hf
    simp only [Bool.and_eq_true, beq_iff_eq, bne_iff_ne, ne_eq]
    rintro ⟨⟨h1, h2⟩, h3⟩
    exact hdup f hf ⟨h1, h2, h3⟩
  have heq : moveFolder s bid none = (true, { s with folders := applyPathRewrite bid (fun f => { f with parent_id := none, path := "/" ++ B.name }) B.path ("/" ++ B.name) s.folders }) := by
    simp only [moveFolder, hB, hgB, Bool.false_eq_true, if_false, hanyB]
  have hCmatch : matchesSqlLike C.path (B.path ++ "/") = true := by
    apply matchesSqlLike_of_prefix
    rw [hCpath]
    exact slash_prefix_of_append _ _
  have hCne' : C.id ≠ bid := by
    rw [hCid]
    exact hCne
  refine ⟨part1, by rw [heq], ?_, ?_⟩
  · refine ⟨rewritePath B.path ("/" ++ B.name) { B with parent_id := none, path := "/" ++ B.name },
      ?_, ?_, ?_, ?_, ?_⟩
    · rw [heq]
      exact applyPathRewrite_mem_updated hBmem hBid _ _ _
    · rw [rewritePath_id]
      exact hBid
    · rw [rewritePath_name]
    · rw [rewritePath_parent]
    · exact rewritePath_path_noop rfl (by
        rw [slash_append_data, hBpath, data_append3]
        simp only [List.length_cons, List.length_append]
        omega)
  · refine ⟨rewritePath B.path ("/" ++ B.name) C, ?_, ?_, ?_, ?_⟩
    · rw [heq]
      exact applyPathRewrite_mem_other hCmem hCne' _ _ _
    · rw [rewritePath_id]
      exact hCid
    · rw [rewritePath_name]
    · rw [rewritePath_matched hCmatch]
      show ("/" ++ B.name) ++ pyDrop C.path (pyLen B.path) = "/" ++ B.name ++ "/" ++ C.name
      apply str_ext
      rw [String.data_append, pyDrop_data, hCpath, data_append3]
      show ("/" ++ B.name).data ++ (B.path.data ++ '/' :: C.name.data).drop B.path.data.length =
        ("/" ++ B.name ++ "/" ++ C.name).data
      rw [List.drop_left, data_append3]

/-- Claim C7 witness on the concrete chain `Geral`, `/A`, `/A/B`,
`/A/B/C`. -/
theorem claim7_witness :
    moveFolder storeABC 2 (some 4) = (false, storeABC) ∧
    (moveFolder storeABC 3 none).1 = true ∧
    (∃ B' ∈ (moveFolder storeABC 3 none).2.folders,
      B'.id = 3 ∧ B'.name = "B" ∧ B'.parent_id = none ∧ B'.path = "/" ++ "B") ∧
    ∃ C' ∈ (moveFolder storeABC 3 none).2.folders,
      C'.id = 4 ∧ C'.name = "C" ∧ C'.path = "/" ++ "B" ++ "/" ++ "C" :=
  claim7_move_cycle_and_root storeABC 2 3 4
    ⟨2, "A", none, "/A"⟩ ⟨3, "B", some 2, "/A/B"⟩ ⟨4, "C", some 3, "/A/B/C"⟩
    (by decide) (by decide) rfl (by decide) (by decide) rfl (by decide)
    (by decide) (by decide) (by decide)

theorem charListLtb_iff_lex : ∀ l m : List Char,
    charListLtb l m = true ↔ List.Lex (· < ·) l m := by
  intro l
  induction l with
  | nil =>
    intro m
    cases m with
    | nil =>
      rw [show charListLtb [] [] = false from rfl]
      constructor
      · intro h
        exact absurd h Bool.false_ne_true
      · intro h
        exact (nomatch h)
    | cons b bs =>
      rw [show charListLtb [] (b :: bs) = true from rfl]
      exact ⟨fun _ => List.Lex.nil, fun _ => rfl⟩
  | cons a as ih =>
    intro m
    cases m with
    | nil =>
      rw [show charListLtb (a :: as) [] = false from rfl]
      constructor
      · intro h
        exact absurd h Bool.false_ne_true
      · intro h
        exact (nomatch h)
    | cons b bs =>
      rw [show charListLtb (a :: as) (b :: bs) =
        (decide (a.val < b.val) || (a.val == b.val && charListLtb as bs)) from rfl]
      rw [Bool.or_eq_true, Bool.and_eq_true, decide_eq_true_eq, beq_iff_eq]
      constructor
      · rintro (h | ⟨hv, h⟩)
        · exact List.Lex.rel h
        · have hb : a = b := Char.ext hv
          subst hb
          exact List.Lex.cons ((ih bs).mp h)
      · intro h
        cases h with
        | rel h => exact Or.inl h
        | cons h => exact Or.inr ⟨rfl, (ih bs).mpr h⟩

theorem strLtb_iff {s t : String} : strLtb s t = true ↔ s < t := by
  rw [String.lt_iff_toList_lt]
  exact charListLtb_iff_lex s.data t.data

theorem strLeb_iff {s t : String} : strLeb s t = true ↔ s ≤ t := by
  unfold strLeb
  rw [Bool.not_eq_true']
  constructor
  · intro h
    by_contra hle
    rw [not_le] at hle
    exact absurd (strLtb_iff.mpr hle) (by rw [h]; exact Bool.false_ne_true)
  · intro h
    rw [← Bool.not_eq_true]
    intro hlt
    exact absurd (strLtb_iff.mp hlt) (not_lt.mpr h)

theorem insertByPathLe_perm (f : Folder) (l : List Folder) :
    List.Perm (insertByPathLe f l) (f :: l) := by
  induction l with
  | nil => exact List.Perm.refl _
  | cons g gs ih =>
    unfold insertByPathLe
    split
    · exact List.Perm.refl _
    · exact (ih.cons g).trans (List.Perm.swap f g gs)

theorem sortByPath_perm (fs : List Folder) : List.Perm (sortByPath fs) fs := by
  induction fs with
  | nil => exact List.Perm.refl _
  | cons f gs ih =>
    unfold sortByPath
    rw [List.foldr_cons]
    exact (insertByPathLe_perm f _).trans (ih.cons f)

theorem insertByPathLe_mem {x f : Folder} {l : List Folder} :
    x ∈ insertByPathLe f l ↔ x = f ∨ x ∈ l := by
  rw [(insertByPathLe_perm f l).mem_iff]
  exact List.mem_cons

theorem insertByPathLe_sorted (f : Folder) {l : List Folder}
    (h : List.Sorted (fun a b : Folder => a.path ≤ b.path) l) :
    List.Sorted (fun a b : Folder => a.path ≤ b.path) (insertByPathLe f l) := by
  induction l with
  | nil => simp [insertByPathLe]
  | cons g gs ih =>
    rw [List.sorted_cons] at h
    unfold insertByPathLe
    split
    · rename_i hle
      rw [List.sorted_cons]
      refine ⟨?_, List.sorted_cons.mpr h⟩
      intro x hx
      rcases List.mem_cons.mp hx with rfl | hx'
      · exact strLeb_iff.mp hle
      · exact le_trans (strLeb_iff.mp hle) (h.1 x hx')
    · rename_i hnle
      have hgf : g.path ≤ f.path := by
        by_cases hlt : strLtb g.path f.path = true
        · exact le_of_lt (strLtb_iff.mp hlt)
        · exfalso
          apply hnle
          unfold strLeb
          rw [show strLtb g.path f.path = false from Bool.eq_false_iff.mpr hlt]
          rfl
      rw [List.sorted_cons]
      refine ⟨?_, ih h.2⟩
      intro x hx
      rcases insertByPathLe_mem.mp hx with rfl | hx'
      · exact hgf
      · exact h.1 x hx'

theorem sortByPath_sorted (fs : List Folder) :
    List.Sorted (fun a b : Folder => a.path ≤ b.path) (sortByPath fs) := by
  induction fs with
  | nil => simp [sortByPath]
  | cons f gs ih =>
    unfold sortByPath
    rw [List.foldr_cons]
    exact insertByPathLe_sorted f ih

theorem isDesc_mem_left {fs : List Folder} {A D : Folder} (h : IsDesc fs A D) :
    A ∈ fs := by
  induction h with
  | direct hA _ _ => exact hA
  | step _ _ _ ih => exact ih

theorem isDesc_mem_right {fs : List Folder} {A D : Folder} (h : IsDesc fs A D) :
    D ∈ fs := by
  cases h with
  | direct _ hD _ => exact hD
  | step _ hD _ => exact hD

theorem slash_prefix_cons (l nm : List Char) : (l ++ ['/']) <+: (l ++ '/' :: nm) := by
  refine ⟨nm, ?_⟩
  rw [List.append_assoc]
  rfl

/-- Under the strong per-row shape and distinct ids, the path of a proper
descendant extends the ancestor's path by a separator. -/
theorem isDesc_slash_prefix {fs : List Folder}
    (hok : ∀ f ∈ fs, folderOkB fs f = true)
    (hnodup : (fs.map Folder.id).Nodup)
    {A D : Folder} (h : IsDesc fs A D) :
    (A.path.data ++ ['/']) <+: D.path.data := by
  induction h with
  | direct hA hD hp =>
    obtain ⟨P, hPmem, hPid, hPpath⟩ := folderOk_parent (hok _ hD) hp
    have : P = A := nodup_map_eq hnodup hPmem hA hPid
    subst this
    rw [hPpath, data_append3]
    exact slash_prefix_cons _ _
  | step hAP hD hp ih =>
    rename_i P _
    obtain ⟨Q, hQmem, hQid, hQpath⟩ := folderOk_parent (hok _ hD) hp
    have : Q = P := nodup_map_eq hnodup hQmem (isDesc_mem_right hAP) hQid
    subst this
    refine ih.trans ?_
    rw [hQpath, data_append3]
    exact List.prefix_append _ _

theorem path_lt_of_slash_prefix {A D : Folder}
    (h : (A.path.data ++ ['/']) <+: D.path.data) : A.path < D.path := by
  obtain ⟨r, hr⟩ := h
  rw [String.lt_iff_toList_lt]
  show List.Lex (· < ·) A.path.data D.path.data
  rw [← hr, List.append_assoc]
  show List.Lex (· < ·) A.path.data (A.path.data ++ ('/' :: r))
  induction A.path.data with
  | nil => exact List.Lex.nil
  | cons a as ih => exact List.Lex.cons ih

/-- Claim C8: on a well-formed store `get_all_folders` returns exactly the
stored rows, sorted by `path` ascending, and in that order every ancestor
appears strictly before each of its descendants. -/
theorem claim8_get_all_folders_order (s : Store) (hwf : wf s) :
    List.Perm (getAllFolders s) s.folders ∧
    List.Sorted (fun a b : Folder => a.path ≤ b.path) (getAllFolders s) ∧
    ∀ A D l₁ l₂, IsDesc s.folders A D → getAllFolders s = l₁ ++ D :: l₂ →
      A ∈ l₁ := by
  refine ⟨sortByPath_perm s.folders, sortByPath_sorted s.folders, ?_⟩
  intro A D l₁ l₂ hdesc hsplit
  have hlt : A.path < D.path :=
    path_lt_of_slash_prefix ( isDesc_slash_prefix hwf.2.2.1 hwf.1 hdesc)
  have hAmem : A ∈ getAllFolders s :=
    (sortByPath_perm s.folders).mem_iff.mpr (isDesc_mem_left hdesc)
  rw [hsplit] at hAmem
  rcases List.mem_append.mp hAmem with h₁ | h₂
  · exact h₁
  · rcases List.mem_cons.mp h₂ with rfl | h₃
    · exact absurd hlt (lt_irrefl _)
    · exfalso
      have hsorted := sortByPath_sorted s.folders
      rw [show getAllFolders s = sortByPath s.folders from rfl] at hsplit
      rw [hsplit] at hsorted
      unfold List.Sorted at hsorted
      rw [List.pairwise_append] at hsorted
      have hDA : D.path ≤ A.path := (List.pairwise_cons.mp hsorted.2.1).1 A h₃
      exact absurd hDA (not_le.mpr hlt)

/-- Claim C8 witness on `storeABC` (stored out of path order is not
needed: the theorem is applied at a concrete well-formed store). -/
theorem claim8_witness :
    List.Perm (getAllFolders storeABC) storeABC.folders ∧
    List.Sorted (fun a b : Folder => a.path ≤ b.path) (getAllFolders storeABC) ∧
    ∀ A D l₁ l₂, IsDesc storeABC.folders A D →
      getAllFolders storeABC = l₁ ++ D :: l₂ → A ∈ l₁ :=
  claim8_get_all_folders_order storeABC (by decide)

/-- Every pair emitted by `_add_folder_with_depth` is either the pair for
the folder the call starts from, or a pair whose folder was reached
through a parent link. -/
theorem addFolderWithDepth_shape (all : List Folder) :
    ∀ (fuel : Nat) (folder : Folder) (depth : Nat) (x : Folder × Nat),
      x ∈ addFolderWithDepth all fuel folder depth →
      x = (folder, depth) ∨ ∃ q, x.1.parent_id = some q := by
  intro fuel
  induction fuel with
  | zero =>
    intro folder depth x hx
    exact absurd hx (List.not_mem_nil x)
  | succ n ih =>
    intro folder depth x hx
    rw [show addFolderWithDepth all (n + 1) folder depth =
      (folder, depth) :: ((all.filter (fun f => f.parent_id == some folder.id)).flatMap
        (fun c => addFolderWithDepth all n c (depth + 1))) from rfl] at hx
    rcases List.mem_cons.mp hx with rfl | hx'
    · exact Or.inl rfl
    · rw [List.mem_flatMap] at hx'
      obtain ⟨c, hc, hxc⟩ := hx'
      rcases ih c (depth + 1) x hxc with rfl | h
      · right
        have hcp := List.of_mem_filter hc
        exact ⟨folder.id, by simpa using hcp⟩
      · exact Or.inr h

/-- Locating one element inside a `flatMap`. -/
theorem flatMap_eq_append_cons {α β : Type} (g : α → List β) :
    ∀ (cs : List α) (l₁ : List β) (x : β) (l₂ : List β),
      cs.flatMap g = l₁ ++ x :: l₂ →
      ∃ cs₁ c cs₂ la lb, cs = cs₁ ++ c :: cs₂ ∧ g c = la ++ x :: lb ∧
        l₁ = cs₁.flatMap g ++ la := by
  intro cs
  induction cs with
  | nil =>
    intro l₁ x l₂ h
    rw [List.flatMap_nil g] at h
    have hlen := congrArg List.length h
    rw [List.length_nil, List.length_append, List.length_cons] at hlen
    omega
  | cons c cs ih =>
    intro l₁ x l₂ h
    rw [List.flatMap_cons] at h
    rcases List.append_eq_append_iff.mp h with ⟨a', ha1, ha2⟩ | ⟨c', hc1, hc2⟩
    · obtain ⟨cs₁, c₀, cs₂, la, lb, h1, h2, h3⟩ := ih a' x l₂ ha2
      refine ⟨c :: cs₁, c₀, cs₂, la, lb, by rw [h1, List.cons_append], h2, ?_⟩
      rw [ha1, h3, List.flatMap_cons, List.append_assoc]
    · cases c' with
      | nil =>
        rw [List.append_nil] at hc1
        rw [List.nil_append] at hc2
        obtain ⟨cs₁, c₀, cs₂, la, lb, h1, h2, h3⟩ := ih [] x l₂ hc2.symm
        obtain ⟨h4, h5⟩ := List.append_eq_nil.mp h3.symm
        refine ⟨c :: cs₁, c₀, cs₂, la, lb, by rw [h1, List.cons_append], h2, ?_⟩
        rw [List.flatMap_cons, h4, h5, List.append_nil, List.append_nil, hc1]
      | cons y ys =>
        rw [List.cons_append] at hc2
        injection hc2 with hy hys
        refine ⟨[], c, cs, l₁, ys, rfl, ?_, by rw [List.flatMap_nil, List.nil_append]⟩
        rw [hc1, hy]

/-- Inside one `_add_folder_with_depth` traversal, every emitted pair with
a parent link either is the head pair or is preceded by a pair for its
parent at one less depth. -/
theorem addFolderWithDepth_parent_before (all : List Folder) :
    ∀ (fuel : Nat) (folder : Folder) (depth : Nat)
      (l₁ l₂ : List (Folder × Nat)) (f : Folder) (d q : Nat),
      addFolderWithDepth all fuel folder depth = l₁ ++ (f, d) :: l₂ →
      f.parent_id = some q →
      ((f, d) = (folder, depth)) ∨ ∃ P dp, (P, dp) ∈ l₁ ∧ P.id = q ∧ d = dp + 1 := by
  intro fuel
  induction fuel with
  | zero =>
    intro folder depth l₁ l₂ f d q h _
    rw [show addFolderWithDepth all 0 folder depth = ([] : List (Folder × Nat)) from rfl] at h
    have hlen := congrArg List.length h
    rw [List.length_nil, List.length_append, List.length_cons] at hlen
    omega
  | succ n ih =>
    intro folder depth l₁ l₂ f d q h hq
    rw [show addFolderWithDepth all (n + 1) folder depth =
      (folder, depth) :: ((all.filter (fun g => g.parent_id == some folder.id)).flatMap
        (fun c => addFolderWithDepth all n c (depth + 1))) from rfl] at h
    cases l₁ with
    | nil =>
      rw [List.nil_append] at h
      injection h with h1 _
      exact Or.inl h1.symm
    | cons y t =>
      rw [List.cons_append] at h
      injection h with h1 h2
      obtain ⟨cs₁, c, cs₂, la, lb, hcs, hgc, ht⟩ :=
        flatMap_eq_append_cons (fun c => addFolderWithDepth all n c (depth + 1))
          _ t (f, d) l₂ h2
      rcases ih c (depth + 1) la lb f d q hgc hq with heq | ⟨P, dp, hP, hPid, hd⟩
      · right
        have hfc : f = c := congrArg Prod.fst heq
        have hdc : d = depth + 1 := congrArg Prod.snd heq
        have hcmem : c ∈ all.filter (fun g => g.parent_id == some folder.id) := by
          rw [hcs]
          exact List.mem_append_right _ (List.mem_cons_self c cs₂)
        have hcp : c.parent_id = some folder.id := by
          simpa using List.of_mem_filter hcmem
        rw [hfc, hcp] at hq
        have hqf : folder.id = q := Option.some_inj.mp hq
        refine ⟨folder, depth, ?_, hqf, hdc⟩
        rw [← h1]
        exact List.mem_cons_self _ _
      · right
        refine ⟨P, dp, ?_, hPid, hd⟩
        refine List.mem_cons_of_mem y ?_
        rw [ht]
        exact List.mem_append_right _ hP

theorem getFolderHierarchy_eq (s : Store) :
    getFolderHierarchy s =
      ((getAllFolders s).filter (fun f => f.parent_id == none)).flatMap
        (fun r => addFolderWithDepth (getAllFolders s) ((getAllFolders s).length + 1) r 0) :=
  rfl

/-- Claim C9: `get_folder_hierarchy` emits every root folder paired with
depth 0, pairs whose folder is a root carry depth 0, and every pair whose
folder has a parent link is preceded in the output by a pair for that
parent carrying exactly one less depth — the depth comes from the
traversal position (the recursion's depth argument), not from any stored
column. -/
theorem claim9_hierarchy_preorder (s : Store) :
    (∀ r ∈ s.folders, r.parent_id = none → (r, 0) ∈ getFolderHierarchy s) ∧
    (∀ x ∈ getFolderHierarchy s, x.1.parent_id = none → x.2 = 0) ∧
    ∀ l₁ l₂ f d q, getFolderHierarchy s = l₁ ++ (f, d) :: l₂ →
      f.parent_id = some q →
      ∃ P dp, (P, dp) ∈ l₁ ∧ P.id = q ∧ d = dp + 1 := by
  refine ⟨?_, ?_, ?_⟩
  · intro r hr hroot
    have hr' : r ∈ getAllFolders s := (sortByPath_perm s.folders).mem_iff.mpr hr
    have hrf : r ∈ (getAllFolders s).filter (fun f => f.parent_id == none) :=
      List.mem_filter.mpr ⟨hr', by simp [hroot]⟩
    rw [getFolderHierarchy_eq, List.mem_flatMap]
    refine ⟨r, hrf, ?_⟩
    rw [show addFolderWithDepth (getAllFolders s) ((getAllFolders s).length + 1) r 0 =
      (r, 0) :: (((getAllFolders s).filter (fun f => f.parent_id == some r.id)).flatMap
        (fun c => addFolderWithDepth (getAllFolders s) ((getAllFolders s).length) c 1)) from rfl]
    exact List.mem_cons_self _ _
  · intro x hx hroot
    rw [getFolderHierarchy_eq, List.mem_flatMap] at hx
    obtain ⟨rt, _, hxin⟩ := hx
    rcases addFolderWithDepth_shape _ _ _ _ x hxin with rfl | ⟨q, hq⟩
    · rfl
    · rw [hroot] at hq
      exact absurd hq (by simp)
  · intro l₁ l₂ f d q hsplit hq
    rw [getFolderHierarchy_eq] at hsplit
    obtain ⟨cs₁, rt, cs₂, la, lb, hcs, hrt_eq, hl₁⟩ :=
      flatMap_eq_append_cons _ _ _ (f, d) l₂ hsplit
    rcases addFolderWithDepth_parent_before _ _ rt 0 la lb f d q hrt_eq hq with
      heq | ⟨P, dp, hP, hPid, hd⟩
    · exfalso
      have hf : f = rt := congrArg Prod.fst heq
      have hrtmem : rt ∈ (getAllFolders s).filter (fun g => g.parent_id == none) := by
        rw [hcs]
        exact List.mem_append_right _ (List.mem_cons_self _ _)
      have hrtroot : rt.parent_id = none := by
        simpa using List.of_mem_filter hrtmem
      rw [hf, hrtroot] at hq
      exact absurd hq (by simp)
    · refine ⟨P, dp, ?_, hPid, hd⟩
      rw [hl₁]
      exact List.mem_append_right _ hP

/-- Claim C9 witness on the concrete store `storeABC`. -/
theorem claim9_witness :
    (∀ r ∈ storeABC.folders, r.parent_id = none → (r, 0) ∈ getFolderHierarchy storeABC) ∧
    (∀ x ∈ getFolderHierarchy storeABC, x.1.parent_id = none → x.2 = 0) ∧
    ∀ l₁ l₂ f d q, getFolderHierarchy storeABC = l₁ ++ (f, d) :: l₂ →
      f.parent_id = some q →
      ∃ P dp, (P, dp) ∈ l₁ ∧ P.id = q ∧ d = dp + 1 :=
  claim9_hierarchy_preorder storeABC

theorem data_append_slash (a : String) : (a ++ "/").data = a.data ++ ['/'] := by
  rw [String.data_append]

/-- No row is its own ancestor-by-path: a path cannot strictly extend
itself. -/
theorem not_slash_prefix_self {l : List Char} (h : (l ++ ['/']) <+: l) : False := by
  have := h.length_le
  rw [List.length_append, List.length_singleton] at this
  omega

/-- A store with `Geral` and a chain `R` → `A` → `B`, matching the
example in the specification's rename property. -/
def storeRAB : Store :=
  ⟨[⟨1, "Geral", none, "/Geral"⟩, ⟨2, "R", none, "/R"⟩, ⟨3, "A", some 2, "/R/A"⟩,
    ⟨4, "B", some 3, "/R/A/B"⟩], [], 5⟩

/-- Claim C2: a successful `rename_folder(folder_id, new_name)` computes
`new_path` from the parent's stored path and the new name, and rewrites
every descendant row by replacing exactly the `old_path` prefix of its
path with `new_path` (`new_path + path[len(old_path):]`), leaving the
descendant's trailing segments and its `name` field unchanged. -/
theorem claim2_rename_subtree (s : Store) (fid : Nat) (F : Folder) (nn : String)
    (hwf : wf s) (hF : getFolderById s fid = some F) {s' : Store}
    (hok : renameFolder s fid nn = some (true, s')) :
    ∃ np : String,
      (F.parent_id = none → np = "/" ++ nn) ∧
      (∀ p P, F.parent_id = some p → getFolderById s p = some P →
        np = P.path ++ "/" ++ nn) ∧
      ∀ D, IsDesc s.folders F D →
        (F.path.data ++ ['/']) <+: D.path.data ∧
        ∃ D' ∈ s'.folders, D'.id = D.id ∧ D'.name = D.name ∧
          D'.path = np ++ pyDrop D.path (pyLen F.path) := by
  obtain ⟨hFmem, hFid⟩ := getFolderById_mem hF
  simp only [renameFolder, hF] at hok
  by_cases hany : (s.folders.any fun f =>
      f.name == nn && f.parent_id == F.parent_id && f.id != fid) = true
  · rw [if_pos hany] at hok
    simp at hok
  · rw [if_neg hany] at hok
    have main : ∀ np : String,
        s'.folders = applyPathRewrite fid
          (fun f => { f with name := nn, path := np }) F.path np s.folders →
        ∀ D, IsDesc s.folders F D →
          (F.path.data ++ ['/']) <+: D.path.data ∧
          ∃ D' ∈ s'.folders, D'.id = D.id ∧ D'.name = D.name ∧
            D'.path = np ++ pyDrop D.path (pyLen F.path) := by
      intro np hfold D hdesc
      have hpre : (F.path.data ++ ['/']) <+: D.path.data :=
        isDesc_slash_prefix hwf.2.2.1 hwf.1 hdesc
      have hDmem : D ∈ s.folders := isDesc_mem_right hdesc
      have hDne : D.id ≠ fid := by
        intro hid
        have : D = F := nodup_map_eq hwf.1 hDmem hFmem (by rw [hid, hFid])
        subst this
        exact not_slash_prefix_self hpre
      have hmatched : matchesSqlLike D.path (F.path ++ "/") = true := by
        apply matchesSqlLike_of_prefix
        rw [data_append_slash]
        exact hpre
      refine ⟨hpre, rewritePath F.path np D, ?_, ?_, ?_, ?_⟩
      · rw [hfold]
        exact applyPathRewrite_mem_other hDmem hDne _ _ _
      · rw [rewritePath_id]
      · rw [rewritePath_name]
      · rw [rewritePath_matched hmatched]
    cases hparent : F.parent_id with
    | none =>
      rw [hparent] at hok
      simp only [Option.some.injEq, Prod.mk.injEq, true_and] at hok
      refine ⟨"/" ++ nn, fun _ => rfl, ?_, ?_⟩
      · intro p P hp _
        exact absurd hp (by simp)
      · exact main ("/" ++ nn) (by rw [← hok])
    | some p =>
      rw [hparent] at hok
      cases hP : getFolderById s p with
      | none =>
        simp only [hP] at hok
        exact absurd hok (by simp)
      | some parent =>
        simp only [hP, Option.some.injEq, Prod.mk.injEq, true_and] at hok
        refine ⟨parent.path ++ "/" ++ nn, ?_, ?_, ?_⟩
        · intro h
          exact absurd h (by simp)
        · intro p' P' hp' hP'
          have hpp : p = p' := Option.some_inj.mp hp'
          rw [← hpp] at hP'
          rw [hP] at hP'
          rw [Option.some_inj.mp hP']
        · exact main (parent.path ++ "/" ++ nn) (by rw [← hok])

/-- Claim C2 witness: renaming `/R/A` to `A2` in the concrete store, with
child `/R/A/B`, as in the specification's example. -/
theorem claim2_witness :
    ∃ np : String,
      ((⟨3, "A", some 2, "/R/A"⟩ : Folder).parent_id = none → np = "/" ++ "A2") ∧
      (∀ p P, (⟨3, "A", some 2, "/R/A"⟩ : Folder).parent_id = some p →
        getFolderById storeRAB p = some P → np = P.path ++ "/" ++ "A2") ∧
      ∀ D, IsDesc storeRAB.folders ⟨3, "A", some 2, "/R/A"⟩ D →
        ((⟨3, "A", some 2, "/R/A"⟩ : Folder).path.data ++ ['/']) <+: D.path.data ∧
        ∃ D' ∈ (⟨[⟨1, "Geral", none, "/Geral"⟩, ⟨2, "R", none, "/R"⟩,
            ⟨3, "A2", some 2, "/R/A2"⟩, ⟨4, "B", some 3, "/R/A2/B"⟩], [], 5⟩ : Store).folders,
          D'.id = D.id ∧ D'.name = D.name ∧
          D'.path = np ++ pyDrop D.path (pyLen (⟨3, "A", some 2, "/R/A"⟩ : Folder).path) :=
  claim2_rename_subtree storeRAB 3 ⟨3, "A", some 2, "/R/A"⟩ ("A2")
    (by decide) (by decide) (by decide)

theorem prefix_cancel {a x y : List Char} : a ++ x <+: a ++ y ↔ x <+: y := by
  constructor
  · rintro ⟨t, ht⟩
    rw [List.append_assoc] at ht
    exact ⟨t, List.append_cancel_left ht⟩
  · rintro ⟨t, ht⟩
    refine ⟨t, ?_⟩
    rw [List.append_assoc, ht]

theorem prefix_shorten {y l₁ l₂ : List Char} (h : y <+: l₁ ++ l₂)
    (hl : y.length ≤ l₁.length) : y <+: l₁ := by
  have h1 := List.prefix_take_iff.mpr ⟨h, hl⟩
  rwa [List.take_left] at h1

/-- The structural core of every descendant-matching argument: if the
slash-terminated prefix of `x` occurs at the front of a path built from a
parent path `P` and a slash-free final segment `nm`, then `x` is `P`
itself or `x`'s slash-terminated prefix already fits inside `P`. -/
theorem prefix_parent {x P nm : List Char} (h : (x ++ ['/']) <+: (P ++ '/' :: nm))
    (hnm : '/' ∉ nm) : x = P ∨ (x ++ ['/']) <+: P := by
  have hgrp : P ++ '/' :: nm = (P ++ ['/']) ++ nm := by
    rw [List.append_assoc]
    rfl
  rw [hgrp] at h
  rcases List.prefix_or_prefix_of_prefix h (List.prefix_append (P ++ ['/']) nm) with h1 | h2
  · rcases Nat.lt_or_ge x.length P.length with hlt | hge
    · right
      refine prefix_shorten h1 ?_
      rw [List.length_append, List.length_singleton]
      omega
    · left
      have hlen : (x ++ ['/']).length = (P ++ ['/']).length := by
        have hle := h1.length_le
        rw [List.length_append, List.length_singleton,
          List.length_append, List.length_singleton] at hle ⊢
        omega
      exact List.append_cancel_right (h1.eq_of_length hlen)
  · rcases h2 with ⟨r, hr⟩
    cases r with
    | nil =>
      left
      rw [List.append_nil] at hr
      exact (List.append_cancel_right hr).symm
    | cons r0 rs =>
      exfalso
      rw [← hr, prefix_cancel] at h
      have h1 : ((P ++ ['/']) ++ (r0 :: rs)).getLast? = (r0 :: rs).getLast? :=
        List.getLast?_append_cons _ _ _
      rw [hr, List.getLast?_concat] at h1
      have h3 : (r0 :: rs).getLast? =
          some ((r0 :: rs).getLast (List.cons_ne_nil r0 rs)) :=
        List.getLast?_eq_getLast _ _
      rw [h3] at h1
      have hlast : (r0 :: rs).getLast (List.cons_ne_nil r0 rs) = '/' :=
        (Option.some_inj.mp h1).symm
      have hmem : '/' ∈ (r0 :: rs) := hlast ▸ List.getLast_mem _
      exact hnm (h.subset hmem)

/-- Any row of the strong shape has a path of the form
`prefix ++ '/' :: name`. -/
theorem path_form {fs : List Folder} {f : Folder} (hok : folderOkB fs f = true) :
    ∃ π, f.path.data = π ++ '/' :: f.name.data := by
  cases hp : f.parent_id with
  | none =>
    refine ⟨[], ?_⟩
    rw [folderOk_root hok hp, slash_append_data, List.nil_append]
  | some p =>
    obtain ⟨P, _, _, hpath⟩ := folderOk_parent hok hp
    exact ⟨P.path.data, by rw [hpath, data_append3]⟩

/-- If a row built on parent `Q` matches `LIKE F.path || '/%'`, then the
prefix already covers `Q`: either `F.path` is exactly `Q.path`, or the
pattern matches `Q.path` as well. -/
theorem matched_step {F Q g : Folder} (hgpath : g.path = Q.path ++ "/" ++ g.name)
    (hgname : '/' ∉ g.name.data)
    (hm : matchesLike g.path (F.path ++ "/") = true) :
    F.path = Q.path ∨ matchesLike Q.path (F.path ++ "/") = true := by
  rw [matchesLike_iff, data_append_slash, hgpath, data_append3] at hm
  rcases prefix_parent hm hgname with heq | hpre
  · exact Or.inl (str_ext heq)
  · right
    rw [matchesLike_iff, data_append_slash]
    exact hpre

/-- A root row never matches `LIKE F.path || '/%'` for a stored `F`. -/
theorem root_not_matched {F g : Folder} (hgpath : g.path = "/" ++ g.name)
    (hgname : '/' ∉ g.name.data) (hFne : F.path.data ≠ []) :
    ¬ matchesLike g.path (F.path ++ "/") = true := by
  intro hm
  rw [matchesLike_iff, data_append_slash, hgpath, slash_append_data] at hm
  have hm' : (F.path.data ++ ['/']) <+: ([] ++ '/' :: g.name.data) := by
    simpa using hm
  rcases prefix_parent hm' hgname with heq | hpre
  · exact hFne heq
  · rcases hpre with ⟨t, ht⟩
    simp at ht

/-- On a store whose rows have the strong path shape, slash-free names,
wildcard-free paths and case-fold-distinct paths, a row matched by
`LIKE F.path || '/%'` is a literal descendant: SQLite's case folding and
wildcards select nothing beyond the literal prefix test. -/
theorem sql_matched_implies_literal {fs : List Folder}
    (hok : ∀ f ∈ fs, folderOkB fs f = true)
    (hslash : ∀ f ∈ fs, '/' ∉ f.name.data)
    (hfnodup : (fs.map (fun f => foldS f.path.data)).Nodup)
    {F : Folder} (hF : F ∈ fs) (hFpct : '%' ∉ F.path.data)
    (hFus : '_' ∉ F.path.data) :
    ∀ n, ∀ g ∈ fs, g.path.data.length ≤ n →
      matchesSqlLike g.path (F.path ++ "/") = true →
      matchesLike g.path (F.path ++ "/") = true := by
  have hppct : '%' ∉ (F.path ++ "/").data := by
    rw [data_append_slash]
    intro hmem
    rcases List.mem_append.mp hmem with h1 | h2
    · exact hFpct h1
    · simp at h2
  have hpus : '_' ∉ (F.path ++ "/").data := by
    rw [data_append_slash]
    intro hmem
    rcases List.mem_append.mp hmem with h1 | h2
    · exact hFus h1
    · simp at h2
  have hfoldpat : foldS (F.path ++ "/").data = foldS F.path.data ++ ['/'] := by
    rw [data_append_slash]
    unfold foldS
    rw [List.map_append]
    simp [fold_slash]
  have hFne : F.path.data ≠ [] := by
    obtain ⟨π, hπ⟩ := path_form (hok F hF)
    rw [hπ]
    simp
  have hFfoldne : foldS F.path.data ≠ [] := by
    unfold foldS
    intro h
    exact hFne (List.map_eq_nil_iff.mp h)
  intro n
  induction n with
  | zero =>
    intro g hg hlen _
    exfalso
    obtain ⟨π, hπ⟩ := path_form (hok g hg)
    rw [hπ] at hlen
    simp at hlen
  | succ n ih =>
    intro g hg hlen hm
    rw [matchesSqlLike_iff hppct hpus, hfoldpat] at hm
    have hnm : '/' ∉ foldS g.name.data := fun h => hslash g hg (mem_foldS_slash.mp h)
    cases hgp : g.parent_id with
    | none =>
      exfalso
      have hgpath := folderOk_root (hok g hg) hgp
      have hgfold : foldS g.path.data = '/' :: foldS g.name.data := by
        rw [hgpath, slash_append_data]
        unfold foldS
        rw [List.map_cons, fold_slash]
      rw [hgfold] at hm
      have hm' : (foldS F.path.data ++ ['/']) <+: ([] ++ '/' :: foldS g.name.data) := by
        simpa using hm
      rcases prefix_parent hm' hnm with heq | hpre
      · exact hFfoldne heq
      · rcases hpre with ⟨t, ht⟩
        simp at ht
    | some p =>
      obtain ⟨Q, hQmem, hQid, hQpath⟩ := folderOk_parent (hok g hg) hgp
      have hgfold : foldS g.path.data = foldS Q.path.data ++ '/' :: foldS g.name.data := by
        rw [hQpath, data_append3]
        unfold foldS
        rw [List.map_append, List.map_cons, fold_slash]
      rw [hgfold] at hm
      rcases prefix_parent hm hnm with heq | hpre
      · have hFQ : F = Q := nodup_map_eq hfnodup hF hQmem heq
        rw [matchesLike_iff, data_append_slash, hQpath, ← hFQ, data_append3]
        exact slash_prefix_cons _ _
      · have hQm : matchesSqlLike Q.path (F.path ++ "/") = true := by
          rw [matchesSqlLike_iff hppct hpus, hfoldpat]
          exact hpre
        have hQlen : Q.path.data.length ≤ n := by
          have hglen : g.path.data.length =
              Q.path.data.length + 1 + g.name.data.length := by
            rw [hQpath, data_append3]
            simp only [List.length_append, List.length_cons]
            omega
          omega
        have hlit := ih Q hQmem hQlen hQm
        rw [matchesLike_iff] at hlit ⊢
        refine hlit.trans ?_
        rw [hQpath, data_append3]
        exact List.prefix_append _ _

/-- On such a store, `LIKE F.path || '/%'` agrees row-by-row with the
literal prefix test. -/
theorem sql_eq_lit_on_rows {fs : List Folder}
    (hok : ∀ f ∈ fs, folderOkB fs f = true)
    (hslash : ∀ f ∈ fs, '/' ∉ f.name.data)
    (hfnodup : (fs.map (fun f => foldS f.path.data)).Nodup)
    {F : Folder} (hF : F ∈ fs) (hFpct : '%' ∉ F.path.data)
    (hFus : '_' ∉ F.path.data) :
    ∀ g ∈ fs, matchesSqlLike g.path (F.path ++ "/") =
      matchesLike g.path (F.path ++ "/") := by
  intro g hg
  by_cases hl : matchesLike g.path (F.path ++ "/") = true
  · rw [hl]
    exact matchesSqlLike_of_prefix (matchesLike_iff.mp hl)
  · rw [Bool.eq_false_iff.mpr hl, Bool.eq_false_iff]
    intro hsql
    exact hl (sql_matched_implies_literal hok hslash hfnodup hF hFpct hFus
      g.path.data.length g hg le_rfl hsql)

/-- Workhorse for rename and move: under well-formedness and
`LIKE`-safety, the shared update-then-rewrite step keeps invariant I1,
provided the updated row's new path is formed from a live, unmoved
parent (or is a root path) with a slash-free final segment. -/
theorem rewrite_preserves_invariantI1 (s : Store) (hwf : wf s) (hls : likeSafe s)
    (fid : Nat) (F : Folder)
    (hF : getFolderById s fid = some F) (upd : Folder → Folder) (np : String)
    (hid : (upd F).id = F.id)
    (hname : '/' ∉ (upd F).name.data)
    (hpath : (upd F).path = np)
    (hnp : ((upd F).parent_id = none ∧ np = "/" ++ (upd F).name) ∨
      (∃ P, P ∈ s.folders ∧ P.id ≠ fid ∧ (upd F).parent_id = some P.id ∧
        np = P.path ++ "/" ++ (upd F).name ∧
        matchesSqlLike P.path (F.path ++ "/") = false)) :
    invariantI1 (applyPathRewrite fid upd F.path np s.folders) := by
  obtain ⟨hnodup, hnodupPaths, hok, hslash, -⟩ := hwf
  obtain ⟨hpat, hfnodup⟩ := hls
  obtain ⟨hFmem, hFid⟩ := getFolderById_mem hF
  have hFpct := (hpat F hFmem).1
  have hFus := (hpat F hFmem).2
  have hconv : ∀ g ∈ s.folders, matchesSqlLike g.path (F.path ++ "/") =
      matchesLike g.path (F.path ++ "/") :=
    sql_eq_lit_on_rows hok hslash hfnodup hFmem hFpct hFus
  have hrow : ∀ g ∈ s.folders, g.id = fid → g = F := fun g hg hgid =>
    nodup_map_eq hnodup hg hFmem (by rw [hgid, hFid])
  have hFnonempty : F.path.data ≠ [] := by
    obtain ⟨π, hπ⟩ := path_form (hok F hFmem)
    rw [hπ]
    simp
  have hppct : '%' ∉ (F.path ++ "/").data := by
    rw [data_append_slash]
    intro hmem
    rcases List.mem_append.mp hmem with h1 | h2
    · exact hFpct h1
    · simp at h2
  have hpus : '_' ∉ (F.path ++ "/").data := by
    rw [data_append_slash]
    intro hmem
    rcases List.mem_append.mp hmem with h1 | h2
    · exact hFus h1
    · simp at h2
  have hfoldpat : foldS (F.path ++ "/").data = foldS F.path.data ++ ['/'] := by
    rw [data_append_slash]
    unfold foldS
    rw [List.map_append]
    simp [fold_slash]
  have hnm' : '/' ∉ foldS (upd F).name.data := fun h => hname (mem_foldS_slash.mp h)
  have hnp_nm : matchesSqlLike np (F.path ++ "/") = false := by
    rw [Bool.eq_false_iff]
    intro hm
    rw [matchesSqlLike_iff hppct hpus, hfoldpat] at hm
    rcases hnp with ⟨-, hnpeq⟩ | ⟨P, hPmem, hPne, -, hnpeq, hPnm⟩
    · have hnpfold : foldS np.data = '/' :: foldS (upd F).name.data := by
        rw [hnpeq, slash_append_data]
        unfold foldS
        rw [List.map_cons, fold_slash]
      rw [hnpfold] at hm
      have hm' : (foldS F.path.data ++ ['/']) <+:
          ([] ++ '/' :: foldS (upd F).name.data) := by
        simpa using hm
      rcases prefix_parent hm' hnm' with heq | hpre
      · have hne0 : foldS F.path.data ≠ [] := by
          unfold foldS
          intro h0
          exact hFnonempty (List.map_eq_nil_iff.mp h0)
        exact hne0 heq
      · rcases hpre with ⟨t, ht⟩
        simp at ht
    · have hnpfold : foldS np.data =
          foldS P.path.data ++ '/' :: foldS (upd F).name.data := by
        rw [hnpeq, data_append3]
        unfold foldS
        rw [List.map_append, List.map_cons, fold_slash]
      rw [hnpfold] at hm
      rcases prefix_parent hm hnm' with heq | hpre
      · have hPF : F = P := nodup_map_eq hfnodup hFmem hPmem heq
        exact hPne (by rw [← hPF, hFid])
      · rw [Bool.eq_false_iff] at hPnm
        apply hPnm
        rw [matchesSqlLike_iff hppct hpus, hfoldpat]
        exact hpre
  have hFnm : matchesSqlLike (upd F).path (F.path ++ "/") = false := by
    rw [hpath]
    exact hnp_nm
  intro g' hg'
  rw [applyPathRewrite_mem] at hg'
  obtain ⟨g, hg, rfl⟩ := hg'
  by_cases hgid : g.id = fid
  · -- the updated row itself
    rw [if_pos hgid, hrow g hg hgid, rewritePath_not_matched hFnm]
    constructor
    · intro hroot
      rcases hnp with ⟨-, hnpeq⟩ | ⟨P, -, -, hp, -, -⟩
      · rw [hpath, hnpeq]
      · rw [hp] at hroot
        exact absurd hroot (by simp)
    · intro P' hP' hpar'
      rcases hnp with ⟨hp, -⟩ | ⟨P, hPmem, hPne, hp, hnpeq, hPnm⟩
      · rw [hp] at hpar'
        exact absurd hpar' (by simp)
      · rw [applyPathRewrite_mem] at hP'
        obtain ⟨q, hq, rfl⟩ := hP'
        by_cases hqid : q.id = fid
        · exfalso
          rw [if_pos hqid, hrow q hq hqid, rewritePath_not_matched hFnm, hid] at hpar'
          have hPid : P.id = F.id := Option.some_inj.mp (hp.symm.trans hpar')
          exact hPne (by rw [hPid, hFid])
        · rw [if_neg hqid, rewritePath_id] at hpar'
          have hqP : q = P :=
            nodup_map_eq hnodup hq hPmem (Option.some_inj.mp (hpar'.symm.trans hp))
          rw [if_neg hqid, hqP, rewritePath_not_matched hPnm, hpath, hnpeq]
  · -- a row other than the updated one
    rw [if_neg hgid]
    by_cases hm : matchesLike g.path (F.path ++ "/") = true
    · -- g is inside the rewritten subtree; it cannot be a root row
      have hmS : matchesSqlLike g.path (F.path ++ "/") = true := by
        rw [hconv g hg]
        exact hm
      cases hgp : g.parent_id with
      | none =>
        exact absurd hm
          (root_not_matched (folderOk_root (hok g hg) hgp) (hslash g hg) hFnonempty)
      | some p =>
        obtain ⟨Q, hQmem, hQid, hQpath⟩ := folderOk_parent (hok g hg) hgp
        rw [rewritePath_matched hmS]
        constructor
        · intro hroot
          have hroot' : g.parent_id = none := hroot
          rw [hgp] at hroot'
          exact absurd hroot' (by simp)
        · intro P' hP' hpar'
          have hpar'' : g.parent_id = some P'.id := hpar'
          rw [applyPathRewrite_mem] at hP'
          obtain ⟨q, hq, rfl⟩ := hP'
          by_cases hqid : q.id = fid
          · -- the parent pointer names the updated row: g was a child of F
            rw [if_pos hqid, hrow q hq hqid, rewritePath_not_matched hFnm] at hpar'' ⊢
            rw [hgp, hid] at hpar''
            have hpF : p = F.id := Option.some_inj.mp hpar''
            have hQF : Q = F := hrow Q hQmem (by rw [hQid, hpF, hFid])
            have hQpath' : g.path = F.path ++ "/" ++ g.name := by rw [hQpath, hQF]
            show np ++ pyDrop g.path (pyLen F.path) = (upd F).path ++ "/" ++ g.name
            apply str_ext
            rw [String.data_append, pyDrop_data, hQpath', data_append3, hpath, data_append3]
            show np.data ++ (F.path.data ++ '/' :: g.name.data).drop F.path.data.length =
              np.data ++ '/' :: g.name.data
            rw [List.drop_left]
          · rw [if_neg hqid, rewritePath_id] at hpar''
            rw [hgp] at hpar''
            have hqQ : q = Q := by
              apply nodup_map_eq hnodup hq hQmem
              rw [hQid]
              exact (Option.some_inj.mp hpar'').symm
            rcases matched_step hQpath (hslash g hg) hm with hFQ | hQm
            · exfalso
              have hFQ' : F = Q := nodup_map_eq hnodupPaths hFmem hQmem hFQ
              exact hqid (by rw [hqQ, ← hFQ', hFid])
            · have hQmS : matchesSqlLike Q.path (F.path ++ "/") = true := by
                rw [hconv Q hQmem]
                exact hQm
              rw [if_neg hqid, hqQ, rewritePath_matched hQmS]
              show np ++ pyDrop g.path (pyLen F.path) =
                (np ++ pyDrop Q.path (pyLen F.path)) ++ "/" ++ g.name
              apply str_ext
              have hk' : F.path.data.length ≤ Q.path.data.length := by
                have hle := (matchesLike_iff.mp hQm).length_le
                rw [data_append_slash, List.length_append, List.length_singleton] at hle
                omega
              rw [data_append3, String.data_append, String.data_append,
                pyDrop_data, pyDrop_data, hQpath, data_append3]
              show np.data ++ (Q.path.data ++ '/' :: g.name.data).drop F.path.data.length =
                np.data ++ Q.path.data.drop F.path.data.length ++ '/' :: g.name.data
              rw [List.drop_append_of_le_length hk', List.append_assoc]
    · -- g is untouched by the rewrite
      have hm' : matchesSqlLike g.path (F.path ++ "/") = false := by
        rw [hconv g hg]
        exact Bool.eq_false_iff.mpr hm
      rw [rewritePath_not_matched hm']
      constructor
      · intro hroot
        exact folderOk_root (hok g hg) hroot
      · intro P' hP' hpar'
        rw [applyPathRewrite_mem] at hP'
        obtain ⟨q, hq, rfl⟩ := hP'
        by_cases hqid : q.id = fid
        · -- the parent pointer names the updated row, so g was a child of F
          -- and would have matched the pattern: impossible in this branch
          exfalso
          rw [if_pos hqid, hrow q hq hqid, rewritePath_not_matched hFnm, hid] at hpar'
          cases hgp : g.parent_id with
          | none =>
            rw [hgp] at hpar'
            exact absurd hpar' (by simp)
          | some p =>
            obtain ⟨Q, hQmem, hQid, hQpath⟩ := folderOk_parent (hok g hg) hgp
            rw [hgp] at hpar'
            have hpF : p = F.id := Option.some_inj.mp hpar'
            have hQF : Q = F := hrow Q hQmem (by rw [hQid, hpF, hFid])
            apply hm
            rw [matchesLike_iff, data_append_slash, hQpath, hQF, data_append3]
            exact slash_prefix_cons _ _
        · rw [if_neg hqid, rewritePath_id] at hpar'
          cases hgp : g.parent_id with
          | none =>
            rw [hgp] at hpar'
            exact absurd hpar' (by simp)
          | some p =>
            obtain ⟨Q, hQmem, hQid, hQpath⟩ := folderOk_parent (hok g hg) hgp
            rw [hgp] at hpar'
            have hqQ : q = Q := by
              apply nodup_map_eq hnodup hq hQmem
              rw [hQid]
              exact (Option.some_inj.mp hpar').symm
            by_cases hQm : matchesLike q.path (F.path ++ "/") = true
            · exfalso
              apply hm
              rw [matchesLike_iff, data_append_slash] at hQm ⊢
              refine hQm.trans ?_
              rw [hqQ] at hQm ⊢
              rw [hQpath, data_append3]
              exact List.prefix_append _ _
            · have hQmS : matchesSqlLike q.path (F.path ++ "/") = false := by
                rw [hqQ, hconv Q hQmem]
                rw [hqQ] at hQm
                exact Bool.eq_false_iff.mpr hQm
              rw [if_neg hqid, rewritePath_not_matched hQmS]
              rw [hqQ] at hQm ⊢
              exact hQpath

theorem path_ne_extend (a c : String) : a ≠ a ++ "/" ++ c := by
  intro h
  have hlen := congrArg (fun s => s.data.length) h
  simp only [data_append3, List.length_append, List.length_cons] at hlen
  omega

/-- Appending a row with a fresh id keeps the I1 clauses of every old
row. -/
theorem append_fresh_old_rows (s : Store) (hwf : wf s) (newRow : Folder)
    (hnewid : newRow.id = s.nextId) (f : Folder) (hf : f ∈ s.folders) :
    (f.parent_id = none → f.path = "/" ++ f.name) ∧
    (∀ P ∈ s.folders ++ [newRow], f.parent_id = some P.id →
      f.path = P.path ++ "/" ++ f.name) := by
  obtain ⟨hnodup, -, hok, -, hbelow⟩ := hwf
  constructor
  · intro hroot
    exact folderOk_root (hok f hf) hroot
  · intro P hP hpar
    obtain ⟨Q, hQmem, hQid, hQpath⟩ := folderOk_parent (hok f hf) hpar
    rcases List.mem_append.mp hP with hPs | hPnew
    · have hQP : Q = P := nodup_map_eq hnodup hQmem hPs (by rw [hQid])
      rw [← hQP]
      exact hQpath
    · exfalso
      have hPn : P = newRow := List.mem_singleton.mp hPnew
      have hlt := hbelow Q hQmem
      rw [hQid, hPn, hnewid] at hlt
      exact lt_irrefl _ hlt

theorem createFolder_preserves_I1 (s : Store) (name : String)
    (parent_id : Option Nat) (nid : Nat) (s' : Store) (hwf : wf s)
    (hparent : ∀ p, parent_id = some p → ∃ P ∈ s.folders, P.id = p)
    (hcr : createFolder s name parent_id = (some nid, s')) :
    invariantI1 s'.folders := by
  unfold createFolder at hcr
  by_cases hany : (s.folders.any fun f => f.name == name && f.parent_id == parent_id) = true
  · rw [if_pos hany] at hcr
    simp at hcr
  · rw [if_neg hany] at hcr
    cases parent_id with
    | none =>
      simp only [Prod.mk.injEq] at hcr
      obtain ⟨-, hs'⟩ := hcr
      rw [← hs']
      intro f hf
      rcases List.mem_append.mp hf with hfs | hfnew
      · exact append_fresh_old_rows s hwf _ rfl f hfs
      · have hfeq : f = ⟨s.nextId, name, none, "/" ++ name⟩ := List.mem_singleton.mp hfnew
        constructor
        · intro _
          rw [hfeq]
        · intro P _ hpar
          rw [hfeq] at hpar
          simp at hpar
    | some p =>
      obtain ⟨P₀, hP₀, hP₀id⟩ := hparent p rfl
      obtain ⟨F₀, hF₀⟩ := getFolderById_isSome ⟨P₀, hP₀, hP₀id⟩
      obtain ⟨hF₀mem, hF₀id⟩ := getFolderById_mem hF₀
      simp only [hF₀, Prod.mk.injEq] at hcr
      obtain ⟨-, hs'⟩ := hcr
      rw [← hs']
      intro f hf
      rcases List.mem_append.mp hf with hfs | hfnew
      · exact append_fresh_old_rows s hwf _ rfl f hfs
      · have hfeq : f = ⟨s.nextId, name, some p, F₀.path ++ "/" ++ name⟩ :=
          List.mem_singleton.mp hfnew
        constructor
        · intro hroot
          rw [hfeq] at hroot
          simp at hroot
        · intro P hP hpar
          rw [hfeq] at hpar
          have hpar' : some p = some P.id := hpar
          have hpid : p = P.id := Option.some_inj.mp hpar'
          rcases List.mem_append.mp hP with hPs | hPnew
          · have hPF : F₀ = P :=
              nodup_map_eq hwf.1 hF₀mem hPs (by rw [hF₀id, hpid])
            rw [hfeq, ← hPF]
          · exfalso
            have hPn : P = ⟨s.nextId, name, some p, F₀.path ++ "/" ++ name⟩ :=
              List.mem_singleton.mp hPnew
            have hlt := hwf.2.2.2.2 F₀ hF₀mem
            rw [hF₀id, hpid, hPn] at hlt
            exact lt_irrefl _ hlt

theorem renameFolder_preserves_I1 (s : Store) (fid : Nat) (nn : String)
    (s' : Store) (hwf : wf s) (hls : likeSafe s) (hslashnn : '/' ∉ nn.data)
    (hrn : renameFolder s fid nn = some (true, s')) :
    invariantI1 s'.folders := by
  cases hF : getFolderById s fid with
  | none =>
    simp only [renameFolder, hF] at hrn
    simp at hrn
  | some F =>
    obtain ⟨hFmem, hFid⟩ := getFolderById_mem hF
    simp only [renameFolder, hF] at hrn
    by_cases hany : (s.folders.any fun f =>
        f.name == nn && f.parent_id == F.parent_id && f.id != fid) = true
    · rw [if_pos hany] at hrn
      simp at hrn
    · rw [if_neg hany] at hrn
      cases hparent : F.parent_id with
      | none =>
        rw [hparent] at hrn
        simp only [Option.some.injEq, Prod.mk.injEq, true_and] at hrn
        rw [← hrn]
        apply rewrite_preserves_invariantI1 s hwf hls fid F hF
          (fun f => { f with name := nn, path := "/" ++ nn }) ("/" ++ nn)
          rfl hslashnn rfl
        left
        exact ⟨hparent, rfl⟩
      | some p =>
        rw [hparent] at hrn
        cases hP : getFolderById s p with
        | none =>
          simp only [hP] at hrn
          exact Option.noConfusion hrn
        | some parent =>
          simp only [hP, Option.some.injEq, Prod.mk.injEq, true_and] at hrn
          rw [← hrn]
          obtain ⟨hpmem, hpid⟩ := getFolderById_mem hP
          obtain ⟨Q, hQmem, hQid, hQpath⟩ := folderOk_parent (hwf.2.2.1 F hFmem) hparent
          have hQpar : Q = parent := nodup_map_eq hwf.1 hQmem hpmem (by rw [hQid, hpid])
          have hFform : F.path = parent.path ++ "/" ++ F.name := by
            rw [← hQpar]
            exact hQpath
          apply rewrite_preserves_invariantI1 s hwf hls fid F hF
            (fun f => { f with name := nn, path := parent.path ++ "/" ++ nn })
            (parent.path ++ "/" ++ nn) rfl hslashnn rfl
          right
          refine ⟨parent, hpmem, ?_, ?_, rfl, ?_⟩
          · intro hpfid
            have hparF : parent = F := nodup_map_eq hwf.1 hpmem hFmem (by rw [hpfid, hFid])
            rw [hparF] at hFform
            exact path_ne_extend F.path F.name hFform
          · show F.parent_id = some parent.id
            rw [hparent, hpid]
          · have hlit : matchesLike parent.path (F.path ++ "/") = false := by
              apply matchesLike_false_of_longer
              rw [data_append_slash, List.length_append, List.length_singleton, hFform,
                data_append3, List.length_append, List.length_cons]
              omega
            rw [sql_eq_lit_on_rows hwf.2.2.1 hwf.2.2.2.1 hls.2 hFmem
              (hls.1 F hFmem).1 (hls.1 F hFmem).2 parent hpmem]
            exact hlit

theorem moveFolder_preserves_I1 (s : Store) (fid : Nat) (npid : Option Nat)
    (s' : Store) (hwf : wf s) (hls : likeSafe s)
    (hmv : moveFolder s fid npid = (true, s')) :
    invariantI1 s'.folders := by
  cases hF : getFolderById s fid with
  | none =>
    simp only [moveFolder, hF] at hmv
    simp at hmv
  | some F =>
    obtain ⟨hFmem, hFid⟩ := getFolderById_mem hF
    simp only [moveFolder, hF] at hmv
    split at hmv
    · simp at hmv
    · split at hmv
      · simp at hmv
      · split at hmv
        · simp at hmv
        · next h2 _ =>
          simp only [Prod.mk.injEq, true_and] at hmv
          rw [← hmv]
          cases npid with
          | none =>
            show invariantI1 (applyPathRewrite fid
              (fun f => { f with parent_id := none, path := "/" ++ F.name })
              F.path ("/" ++ F.name) s.folders)
            apply rewrite_preserves_invariantI1 s hwf hls fid F hF
              (fun f => { f with parent_id := none, path := "/" ++ F.name })
              ("/" ++ F.name) rfl (hwf.2.2.2.1 F hFmem) rfl
            left
            exact ⟨rfl, rfl⟩
          | some np =>
            cases hNP : getFolderById s np with
            | none =>
              simp [hNP] at h2
            | some NPf =>
              obtain ⟨hNPmem, hNPid⟩ := getFolderById_mem hNP
              simp only [hNP, Bool.or_eq_true, not_or, Bool.not_eq_true] at h2
              obtain ⟨h2a, h2b⟩ := h2
              simp only [hNP]
              apply rewrite_preserves_invariantI1 s hwf hls fid F hF
                (fun f => { f with parent_id := some np, path := NPf.path ++ "/" ++ F.name })
                (NPf.path ++ "/" ++ F.name) rfl (hwf.2.2.2.1 F hFmem) rfl
              right
              refine ⟨NPf, hNPmem, ?_, ?_, rfl, ?_⟩
              · intro hne
                rw [hNPid] at hne
                rw [hne] at h2a
                simp at h2a
              · show some np = some NPf.id
                rw [hNPid]
              · rw [sql_eq_lit_on_rows hwf.2.2.1 hwf.2.2.2.1 hls.2 hFmem
                  (hls.1 F hFmem).1 (hls.1 F hFmem).2 NPf hNPmem]
                exact h2b

theorem deleteFolder_preserves_I1 (s : Store) (fid : Nat) (s' : Store)
    (hwf : wf s) (hdel : deleteFolder s fid = (true, s')) :
    invariantI1 s'.folders := by
  cases hF : getFolderById s fid with
  | none =>
    simp only [deleteFolder, hF] at hdel
    simp at hdel
  | some F =>
    simp only [deleteFolder, hF] at hdel
    split at hdel
    · simp at hdel
    · cases hger : s.folders.find? (fun f => f.name == "Geral" && f.parent_id == none) with
      | none =>
        simp only [hger] at hdel
        simp at hdel
      | some geral =>
        simp only [hger, Prod.mk.injEq, true_and] at hdel
        rw [← hdel]
        intro f hf
        have hfs : f ∈ s.folders := List.mem_of_mem_filter hf
        constructor
        · intro hroot
          exact folderOk_root (hwf.2.2.1 f hfs) hroot
        · intro P hP hpar
          have hPs : P ∈ s.folders := List.mem_of_mem_filter hP
          obtain ⟨Q, hQmem, hQid, hQpath⟩ := folderOk_parent (hwf.2.2.1 f hfs) hpar
          have hQP : Q = P := nodup_map_eq hwf.1 hQmem hPs (by rw [hQid])
          rw [← hQP]
          exact hQpath

/-- C1 counterexample: folder names are never validated, so a root folder
named `x/y` can be created (its path is then `/x/y`, which also looks like
a path below `/x`). Starting from the initial store, `create_folder("x")`,
`create_folder("x/y")` both succeed and I1 still holds; but the successful
`rename_folder(2, "z")` then treats the unrelated root row `x/y` as a
descendant of `/x` and rewrites its path to `/z/y`, which violates I1's
root clause (`/z/y ≠ "/" ++ "x/y"`).  The final conjuncts show the same
breakage without any slash in a name, through `LIKE` wildcards: on a
well-formed store with roots `a_b` (path `/a_b`) and `axb` (path `/axb`)
and child `c` (path `/axb/c`), renaming `a_b` to `z` matches `/axb/c`
against `LIKE '/a_b/%'` (the `_` wildcard) and rewrites it to `/z/c`
while its parent keeps path `/axb`, violating I1's parent clause. -/
theorem claim1_counterexample :
    (createFolder initStore ("x") none).1 = some 2 ∧
    (createFolder (createFolder initStore ("x") none).2 ("x/y") none).1 = some 3 ∧
    invariantI1 (createFolder (createFolder initStore ("x") none).2 ("x/y") none).2.folders ∧
    renameFolder (createFolder (createFolder initStore ("x") none).2 ("x/y") none).2 2 ("z") =
      some (true, ⟨[⟨1, "Geral", none, "/Geral"⟩, ⟨2, "z", none, "/z"⟩,
        ⟨3, "x/y", none, "/z/y"⟩], [], 4⟩) ∧
    ¬ invariantI1 [⟨1, "Geral", none, "/Geral"⟩, ⟨2, "z", none, "/z"⟩,
      ⟨3, "x/y", none, "/z/y"⟩] ∧
    wf (Store.mk [⟨1, "Geral", none, "/Geral"⟩, ⟨2, "a_b", none, "/a_b"⟩,
      ⟨3, "axb", none, "/axb"⟩, ⟨4, "c", some 3, "/axb/c"⟩] [] 5) ∧
    renameFolder (Store.mk [⟨1, "Geral", none, "/Geral"⟩, ⟨2, "a_b", none, "/a_b"⟩,
      ⟨3, "axb", none, "/axb"⟩, ⟨4, "c", some 3, "/axb/c"⟩] [] 5) 2 ("z") =
      some (true, ⟨[⟨1, "Geral", none, "/Geral"⟩, ⟨2, "z", none, "/z"⟩,
        ⟨3, "axb", none, "/axb"⟩, ⟨4, "c", some 3, "/z/c"⟩], [], 5⟩) ∧
    ¬ invariantI1 [⟨1, "Geral", none, "/Geral"⟩, ⟨2, "z", none, "/z"⟩,
      ⟨3, "axb", none, "/axb"⟩, ⟨4, "c", some 3, "/z/c"⟩] := by
  decide

/-- C1 (amended): invariant I1 is preserved by every successful
`create_folder`, `rename_folder`, `move_folder` and `delete_folder`,
provided the store is well formed beforehand (distinct ids and paths,
per-row path shape, ids below the id counter, and — crucially, see the
counterexample — no `/` inside any stored folder name), rename and move
additionally find the store `LIKE`-safe (no `%` or `_` inside any stored
path, no two stored paths identical up to ASCII case folding — otherwise
the `LIKE old_path || '/%'` subtree clause rewrites unrelated rows), the
created or renamed name contains no `/`, and a supplied `parent_id` on
create references a live row. -/
theorem claim1_amended_i1_preserved :
    (∀ (s : Store) (name : String) (parent_id : Option Nat) (nid : Nat) (s' : Store),
      wf s →
      (∀ p, parent_id = some p → ∃ P ∈ s.folders, P.id = p) →
      createFolder s name parent_id = (some nid, s') →
      invariantI1 s'.folders) ∧
    (∀ (s : Store) (fid : Nat) (new_name : String) (s' : Store),
      wf s → likeSafe s → '/' ∉ new_name.data →
      renameFolder s fid new_name = some (true, s') →
      invariantI1 s'.folders) ∧
    (∀ (s : Store) (fid : Nat) (new_parent_id : Option Nat) (s' : Store),
      wf s → likeSafe s →
      moveFolder s fid new_parent_id = (true, s') →
      invariantI1 s'.folders) ∧
    (∀ (s : Store) (fid : Nat) (s' : Store),
      wf s →
      deleteFolder s fid = (true, s') →
      invariantI1 s'.folders) := by
  refine ⟨?_, ?_, ?_, ?_⟩
  · intro s name parent_id nid s' hwf hparent hcr
    exact createFolder_preserves_I1 s name parent_id nid s' hwf hparent hcr
  · intro s fid nn s' hwf hls hnn hrn
    exact renameFolder_preserves_I1 s fid nn s' hwf hls hnn hrn
  · intro s fid npid s' hwf hls hmv
    exact moveFolder_preserves_I1 s fid npid s' hwf hls hmv
  · intro s fid s' hwf hdel
    exact deleteFolder_preserves_I1 s fid s' hwf hdel

theorem claim1_witness :
    invariantI1 (Store.mk [⟨1, "Geral", none, "/Geral"⟩,
      ⟨2, "Work", none, "/Work"⟩] [] 3).folders ∧
    invariantI1 (Store.mk [⟨1, "Geral", none, "/Geral"⟩, ⟨2, "A2", none, "/A2"⟩,
      ⟨3, "B", some 2, "/A2/B"⟩, ⟨4, "C", some 3, "/A2/B/C"⟩] [] 5).folders ∧
    invariantI1 (Store.mk [⟨1, "Geral", none, "/Geral"⟩, ⟨2, "A", none, "/A"⟩,
      ⟨3, "B", none, "/B"⟩, ⟨4, "C", some 3, "/B/C"⟩] [] 5).folders ∧
    invariantI1 (Store.mk [⟨1, "Geral", none, "/Geral"⟩,
      ⟨3, "B", some 2, "/A/B"⟩] [⟨1, some 1⟩] 4).folders := by
  refine ⟨?_, ?_, ?_, ?_⟩
  · exact claim1_amended_i1_preserved.1 initStore ("Work") none 2 _ (by decide)
      (fun p hp => Option.noConfusion hp) (by decide)
  · exact claim1_amended_i1_preserved.2.1 storeABC 2 ("A2") _ (by decide) (by decide)
      (by decide) (by decide)
  · exact claim1_amended_i1_preserved.2.2.1 storeABC 3 none _ (by decide) (by decide)
      (by decide)
  · exact claim1_amended_i1_preserved.2.2.2 storeAB 2 _ (by decide) (by decide)
